import Mathlib

/-!
Verification development for the WMT Client deployment script (`deploy.py`).

The script is embedded shallowly:

* Remote paths are lists of segments (`RPath`); the string form handed to the
  exclusion filter is the segments interleaved with `'/'` (`pathChars`).
  Windows-backslash conversion and trailing slashes on the constant include
  entries are normalised away by this representation.
* The local artifact tree is a finite tree (`FSNode`/`FSList`).
* The SFTP layer is a truthful remote state (set of existing directories)
  plus a failure schedule `failAt : Nat → Bool` giving, per transport call
  index, whether that call raises a non-`FileNotFoundError` exception.
  `stat` reports `found`/`notFound` according to the remote state; `mkdir`
  on an existing directory or with a missing parent raises, as a real SFTP
  server does.  Every attempted call is appended to a trace.
* `run_test_suites`, `deploy_lightsail` (server and bridge paths),
  `deploy_test_server`, `git_commit_before_deploy`, `log_deploy` and `main`
  are embedded as pure functions over "world" records holding the outcomes
  of the external processes they consult.
-/

/-! ### Paths and the exclusion filter (`should_exclude`, deploy.py lines 310-321) -/

abbrev Seg : Type := List Char

abbrev RPath : Type := List Seg

def sepC : Char := '/'

/-- String form of a path: segments joined with `'/'`, as `'/'.join(parts)` /
`str(path)` produce in the script. -/
def pathChars (p : RPath) : List Char := List.intercalate [sepC] p

/-- Segment literal helper. -/
def seg (s : String) : Seg := s.data

/-- One exclusion pattern applied to the string form of a path, exactly as in
`should_exclude`: a pattern ending in `'/'` matches if the pattern minus the
slash occurs as a substring; a pattern starting with `'*'` matches if the
string ends with the rest of the pattern; any other pattern matches as a
substring. -/
def patMatches (pat : List Char) (s : List Char) : Bool :=
  if pat.getLast? = some sepC then decide (pat.dropLast <:+: s)
  else if pat.head? = some '*' then decide (pat.drop 1 <:+ s)
  else decide (pat <:+: s)

/-- `should_exclude` from `deploy_ionos`: any pattern in the exclusion list
matches the path string. -/
def should_exclude (pats : List (List Char)) (s : List Char) : Bool :=
  pats.any (fun pat => patMatches pat s)

/-- The exclusion predicate as the specification words it: a trailing-slash
pattern matches by substring against some path segment; a leading-`*` pattern
matches by suffix of the whole path string; any other pattern by substring of
the whole path string. -/
def specPatMatches (pat : List Char) (p : RPath) : Prop :=
  if pat.getLast? = some sepC then ∃ x ∈ p, pat.dropLast <:+: x
  else if pat.head? = some '*' then pat.drop 1 <:+ pathChars p
  else pat <:+: pathChars p

/-- A path matches some exclusion pattern, in the specification's sense. -/
def specExcluded (pats : List (List Char)) (p : RPath) : Prop :=
  ∃ pat ∈ pats, specPatMatches pat p

/-- Trailing-slash patterns whose stem contains no slash (true of every
pattern in `IONOS_EXCLUDE`). -/
def stemSlashFree (pats : List (List Char)) : Prop :=
  ∀ pat ∈ pats, pat.getLast? = some sepC → sepC ∉ pat.dropLast

/-! ### Local filesystem trees -/

mutual
inductive FSNode where
  | file : FSNode
  | dir : FSList → FSNode
inductive FSList where
  | nil : FSList
  | cons : Seg → FSNode → FSList → FSList
end

mutual
def lookupNode : FSNode → RPath → Option FSNode
  | n, [] => some n
  | .file, _ :: _ => none
  | .dir cs, a :: p => lookupList cs a p
def lookupList : FSList → Seg → RPath → Option FSNode
  | .nil, _, _ => none
  | .cons name n rest, a, p => if name = a then lookupNode n p else lookupList rest a p
end

/-- Child membership in a directory listing. -/
def childMem (name : Seg) (n : FSNode) : FSList → Prop
  | .nil => False
  | .cons name' n' rest => (name' = name ∧ n' = n) ∨ childMem name n rest

/-! ### The SFTP transport model -/

inductive Op where
  | statDir : RPath → Op
  | mkdir : RPath → Op
  | putFile : RPath → Op
deriving DecidableEq

inductive Msg where
  | uploading : RPath → Msg
  | uploadedSummary : Nat → Msg
  | sftpError : Msg
deriving DecidableEq

structure SyncCfg where
  pats : List (List Char)
  failAt : Nat → Bool

structure SyncSt where
  remoteDirs : List RPath
  trace : List Op
  msgs : List Msg
  uploaded : Nat
  opCount : Nat

inductive StatRes where
  | found : StatRes
  | notFound : StatRes
deriving DecidableEq

/-- `sftp.stat`: raises on a scheduled transport failure, otherwise reports
truthfully whether the directory exists (`FileNotFoundError` = `notFound`).
Every attempted call lands in the trace and advances the call counter. -/
def doStat (cfg : SyncCfg) (p : RPath) (st : SyncSt) : Except SyncSt (StatRes × SyncSt) :=
  if cfg.failAt st.opCount then
    .error { st with trace := st.trace ++ [.statDir p], opCount := st.opCount + 1 }
  else if p ∈ st.remoteDirs then
    .ok (.found, { st with trace := st.trace ++ [.statDir p], opCount := st.opCount + 1 })
  else
    .ok (.notFound, { st with trace := st.trace ++ [.statDir p], opCount := st.opCount + 1 })

/-- `sftp.mkdir`: raises on a scheduled failure, on an already-existing
directory, or on a missing parent directory; otherwise creates the
directory. -/
def doMkdir (cfg : SyncCfg) (p : RPath) (st : SyncSt) : Except SyncSt SyncSt :=
  if cfg.failAt st.opCount then
    .error { st with trace := st.trace ++ [.mkdir p], opCount := st.opCount + 1 }
  else if p ∈ st.remoteDirs then
    .error { st with trace := st.trace ++ [.mkdir p], opCount := st.opCount + 1 }
  else if p.length ≤ 1 ∨ p.dropLast ∈ st.remoteDirs then
    .ok { st with
          remoteDirs := p :: st.remoteDirs
          trace := st.trace ++ [.mkdir p]
          opCount := st.opCount + 1 }
  else
    .error { st with trace := st.trace ++ [.mkdir p], opCount := st.opCount + 1 }

/-- `sftp.put`, preceded by the `Uploading …` print; on success the uploaded
counter is incremented. -/
def doPut (cfg : SyncCfg) (p : RPath) (st : SyncSt) : Except SyncSt SyncSt :=
  if cfg.failAt st.opCount then
    .error { st with
             msgs := st.msgs ++ [.uploading p]
             trace := st.trace ++ [.putFile p]
             opCount := st.opCount + 1 }
  else
    .ok { st with
          msgs := st.msgs ++ [.uploading p]
          trace := st.trace ++ [.putFile p]
          opCount := st.opCount + 1
          uploaded := st.uploaded + 1 }

/-- The parent-directory creation loop of the file branch of `upload_path`
(lines 344-352): for each prefix of the parent directory, root to leaf,
probe it and create it when absent.  `b` is the prefix processed so far,
`rest` the remaining segments. -/
def ensureDirs (cfg : SyncCfg) (b : RPath) (rest : List Seg) (st : SyncSt) :
    Except SyncSt SyncSt :=
  match rest with
  | [] => .ok st
  | a :: rest' =>
    match doStat cfg (b ++ [a]) st with
    | .error s => .error s
    | .ok (.found, s) => ensureDirs cfg (b ++ [a]) rest' s
    | .ok (.notFound, s) =>
      match doMkdir cfg (b ++ [a]) s with
      | .error s' => .error s'
      | .ok s' => ensureDirs cfg (b ++ [a]) rest' s'

/-- The file branch of `upload_path` (lines 337-356): probe the parent
directory, create missing ancestors root-to-leaf when the probe reports
absence, then upload. -/
def uploadFile (cfg : SyncCfg) (p : RPath) (st : SyncSt) : Except SyncSt SyncSt :=
  if p.dropLast = [] then doPut cfg p st
  else
    match doStat cfg p.dropLast st with
    | .error s => .error s
    | .ok (.found, s) => doPut cfg p s
    | .ok (.notFound, s) =>
      match ensureDirs cfg [] p.dropLast s with
      | .error s' => .error s'
      | .ok s' => doPut cfg p s'

mutual
/-- `upload_path` (lines 323-368): skip excluded paths; upload a file after
ensuring its ancestors; for a directory, probe it, create it when absent and
recurse into its children (the local and remote relative paths coincide
throughout, as in the script). -/
def upload_path (cfg : SyncCfg) (p : RPath) (n : FSNode) (st : SyncSt) :
    Except SyncSt SyncSt :=
  if should_exclude cfg.pats (pathChars p) then .ok st
  else
    match n with
    | .file => uploadFile cfg p st
    | .dir cs =>
      match doStat cfg p st with
      | .error s => .error s
      | .ok (.found, s) => uploadChildren cfg p cs s
      | .ok (.notFound, s) =>
        match doMkdir cfg p s with
        | .error s' => .error s'
        | .ok s' => uploadChildren cfg p cs s'
def uploadChildren (cfg : SyncCfg) (p : RPath) (cs : FSList) (st : SyncSt) :
    Except SyncSt SyncSt :=
  match cs with
  | .nil => .ok st
  | .cons name n rest =>
    match upload_path cfg (p ++ [name]) n st with
    | .error s => .error s
    | .ok s => uploadChildren cfg p rest s
end

/-- The `for item in IONOS_DEPLOY_FILES` loop (lines 370-372): entries absent
from the local tree are neither files nor directories and produce no
operations. -/
def uploadEntries (cfg : SyncCfg) (root : FSNode) (es : List RPath) (st : SyncSt) :
    Except SyncSt SyncSt :=
  match es with
  | [] => .ok st
  | e :: rest =>
    match (match lookupNode root e with
           | none => Except.ok st
           | some n => upload_path cfg e n st) with
    | .error s => .error s
    | .ok s => uploadEntries cfg root rest s

/-- `deploy_ionos` from the upload loop onward (lines 308-382): a successful
run prints the uploaded count; any raised transport error is caught, printed
as `SFTP Error`, and turned into a `False` return. -/
def deploy_ionos (cfg : SyncCfg) (root : FSNode) (es : List RPath) (init : List RPath) :
    Bool × SyncSt :=
  match uploadEntries cfg root es ⟨init, [], [], 0, 0⟩ with
  | .ok st => (true, { st with msgs := st.msgs ++ [.uploadedSummary st.uploaded] })
  | .error st => (false, { st with msgs := st.msgs ++ [.sftpError] })

/-! ### Constants of the script -/

def IONOS_EXCLUDE : List (List Char) := [seg ".git/", seg "__pycache__/", seg "*.pyc"]

def IONOS_DEPLOY_FILES : List RPath :=
  [[seg "index.php"], [seg "app.php"], [seg "characters.php"], [seg "guest.php"],
   [seg "admin.php"], [seg "reset-password.php"], [seg "composer.json"],
   [seg "api"], [seg "assets"], [seg "config"], [seg "includes"], [seg "websocket"],
   [seg "data", seg ".htaccess"],
   [seg "data", seg "users", seg ".htaccess"],
   [seg "data", seg "users", seg "index.php"],
   [seg "data", seg "users", seg "backups", seg ".htaccess"],
   [seg "data", seg "users", seg "backups", seg "index.php"],
   [seg "data", seg "logs", seg ".htaccess"],
   [seg "data", seg "logs", seg "index.php"]]

/-! ### Trace properties used by the claims -/

/-- The remote path an operation uploads to or creates (`stat` probes touch
nothing). -/
def opTarget : Op → Option RPath
  | .statDir _ => none
  | .mkdir p => some p
  | .putFile p => some p

/-- Parent-before-child: no operation placed before a `mkdir P` in the trace
uploads to or creates a path strictly below `P`. -/
def parentBefore (t : List Op) : Prop :=
  ∀ l₁ P l₂, t = l₁ ++ Op.mkdir P :: l₂ →
    ∀ op ∈ l₁, ∀ r, opTarget op = some r → ¬(P <+: r ∧ P ≠ r)

/-- Probe-then-create: every `mkdir P` in the trace immediately follows a
`stat` probe of the same path. -/
def probeBefore (t : List Op) : Prop :=
  ∀ l₁ P l₂, t = l₁ ++ Op.mkdir P :: l₂ → ∃ l₀, l₁ = l₀ ++ [Op.statDir P]

/-- Every nonempty prefix of `r` (including `r` itself) passes the exclusion
filter. -/
def cleanPath (pats : List (List Char)) (r : RPath) : Prop :=
  ∀ P, P <+: r → P ≠ [] → should_exclude pats (pathChars P) = false

/-- Every nonempty strict prefix of `p` passes the exclusion filter. -/
def ancClean (pats : List (List Char)) (p : RPath) : Prop :=
  ∀ P, P <+: p → P ≠ p → P ≠ [] → should_exclude pats (pathChars P) = false

/-- All upload/create targets in the trace are clean. -/
def cleanTrace (pats : List (List Char)) (t : List Op) : Prop :=
  ∀ op ∈ t, ∀ r, opTarget op = some r → cleanPath pats r

/-- A set of remote directories closed under nonempty ancestors, as a real
remote filesystem is. -/
def closedDirs (ds : List RPath) : Prop :=
  ∀ p ∈ ds, ∀ q, q <+: p → q ≠ [] → q ∈ ds

/-- Execution invariant of the synchronizer. -/
structure SyncInv (cfg : SyncCfg) (st : SyncSt) : Prop where
  closed : closedDirs st.remoteDirs
  supported : ∀ op ∈ st.trace, ∀ r, opTarget op = some r →
    ∀ P, P <+: r → P ≠ r → P ≠ [] → P ∈ st.remoteDirs
  pb : parentBefore st.trace
  probe : probeBefore st.trace
  noFail : ∀ i, i < st.opCount → cfg.failAt i = false
  noSum : ∀ k, Msg.uploadedSummary k ∉ st.msgs

/-- What holds of the state carried by a raised transport error. -/
structure ErrPost (cfg : SyncCfg) (st : SyncSt) : Prop where
  pb : parentBefore st.trace
  probe : probeBefore st.trace
  noFailBut : ∀ i, i + 1 < st.opCount → cfg.failAt i = false
  noSum : ∀ k, Msg.uploadedSummary k ∉ st.msgs

/-- Paths visited by the synchronizer, together with their local node: the
top-level include entries, and every child of a visited, non-excluded
directory. -/
inductive VisitedNode (pats : List (List Char)) (root : FSNode) (es : List RPath) :
    RPath → FSNode → Prop where
  | entry : ∀ e n, e ∈ es → lookupNode root e = some n → VisitedNode pats root es e n
  | child : ∀ p cs name n, VisitedNode pats root es p (.dir cs) →
      should_exclude pats (pathChars p) = false → childMem name n cs →
      VisitedNode pats root es (p ++ [name]) n

mutual
/-- The files a complete, failure-free run uploads below path `p`. -/
def syncPuts (pats : List (List Char)) (p : RPath) : FSNode → List RPath
  | .file => if should_exclude pats (pathChars p) then [] else [p]
  | .dir cs => if should_exclude pats (pathChars p) then [] else syncPutsList pats p cs
def syncPutsList (pats : List (List Char)) (p : RPath) : FSList → List RPath
  | .nil => []
  | .cons name n rest => syncPuts pats (p ++ [name]) n ++ syncPutsList pats p rest
end

mutual
/-- The directories a complete, failure-free run probes below path `p`. -/
def syncProbes (pats : List (List Char)) (p : RPath) : FSNode → List RPath
  | .file => []
  | .dir cs => if should_exclude pats (pathChars p) then [] else p :: syncProbesList pats p cs
def syncProbesList (pats : List (List Char)) (p : RPath) : FSList → List RPath
  | .nil => []
  | .cons name n rest => syncProbes pats (p ++ [name]) n ++ syncProbesList pats p rest
end

/-- The files uploaded for the whole entry list. -/
def syncPutsAll (pats : List (List Char)) (root : FSNode) (es : List RPath) : List RPath :=
  match es with
  | [] => []
  | e :: rest =>
    (match lookupNode root e with
     | none => []
     | some n => syncPuts pats e n) ++ syncPutsAll pats root rest

/-- The directories probed for the whole entry list. -/
def syncProbesAll (pats : List (List Char)) (root : FSNode) (es : List RPath) : List RPath :=
  match es with
  | [] => []
  | e :: rest =>
    (match lookupNode root e with
     | none => []
     | some n => syncProbes pats e n) ++ syncProbesAll pats root rest

/-! ### `run_test_suites` (lines 215-274) -/

inductive SuiteStatus where
  | pass : SuiteStatus
  | fail : SuiteStatus
  | timeout : SuiteStatus
deriving DecidableEq

/-- What one remote test-script invocation did: timed out, or completed with
optionally parseable `X passed, Y failed` output and an exit code. -/
inductive SuiteOutcome where
  | timedOut : SuiteOutcome
  | completed : Option (Nat × Nat) → Nat → SuiteOutcome
deriving DecidableEq

structure SuiteDetail where
  passed : Nat
  failed : Nat
  status : SuiteStatus
deriving DecidableEq

/-- The per-suite record appended to `details`. -/
def suiteDetail : SuiteOutcome → SuiteDetail
  | .timedOut => ⟨0, 0, .timeout⟩
  | .completed (some (p, f)) _ => ⟨p, f, if f = 0 then .pass else .fail⟩
  | .completed none rc => if rc = 0 then ⟨1, 0, .pass⟩ else ⟨0, 1, .fail⟩

/-- What one suite adds to `total_passed` and `total_failed` (a timeout adds
one failure even though its detail records zero). -/
def suiteTotals : SuiteOutcome → Nat × Nat
  | .timedOut => (0, 1)
  | .completed (some (p, f)) _ => (p, f)
  | .completed none rc => if rc = 0 then (1, 0) else (0, 1)

/-- `run_test_suites`: totals and details over the suite list. -/
def run_test_suites : List SuiteOutcome → Nat × Nat × List SuiteDetail
  | [] => (0, 0, [])
  | o :: rest =>
    ((suiteTotals o).1 + (run_test_suites rest).1,
     (suiteTotals o).2 + (run_test_suites rest).2.1,
     suiteDetail o :: (run_test_suites rest).2.2)

/-- A suite's failure count as the specification reads it off a detail row: a
timed-out suite counts as exactly one failure. -/
def suiteFailCount (d : SuiteDetail) : Nat :=
  if d.status = .timeout then 1 else d.failed

/-! ### `deploy_lightsail` (lines 70-148) and `deploy_test_server` (lines 150-212) -/

inductive BridgeCmd where
  | journal : BridgeCmd
  | scpCopy : BridgeCmd
  | installRestart : BridgeCmd
deriving DecidableEq

structure BridgeWorld where
  localExists : Bool
  scpOk : Bool
  installOk : Bool
deriving DecidableEq

/-- The `target == 'bridge'` branch of `deploy_lightsail`: the session-count
journal probe always runs first; without `--yes` the function aborts before
any copy, install or restart. -/
def deploy_lightsail_bridge (force_bridge : Bool) (w : BridgeWorld) :
    Bool × List BridgeCmd :=
  if ¬force_bridge then (false, [.journal])
  else if ¬w.localExists then (false, [.journal])
  else if ¬w.scpOk then (false, [.journal, .scpCopy])
  else if ¬w.installOk then (false, [.journal, .scpCopy, .installRestart])
  else (true, [.journal, .scpCopy, .installRestart])

inductive LSEv where
  | scpCopy : LSEv
  | installRestart : LSEv
  | healthProbe : LSEv
deriving DecidableEq

inductive LSMsg where
  | running : LSMsg
  | warnStatus : String → LSMsg
deriving DecidableEq

structure LSWorld where
  localExists : Bool
  scpOk : Bool
  installOk : Bool
  health : String
deriving DecidableEq

/-- The server branch of `deploy_lightsail` (lines 116-148): copy and
install/restart failures are hard failures; a non-`active` post-restart
status only prints a warning and the function still returns `True`. -/
def deploy_lightsail_server (w : LSWorld) : Bool × List LSEv × List LSMsg :=
  if ¬w.localExists then (false, [], [])
  else if ¬w.scpOk then (false, [.scpCopy], [])
  else if ¬w.installOk then (false, [.scpCopy, .installRestart], [])
  else if w.health = "active" then
    (true, [.scpCopy, .installRestart, .healthProbe], [.running])
  else (true, [.scpCopy, .installRestart, .healthProbe], [.warnStatus w.health])

structure TSWorld where
  keyExists : Bool
  localExists : Bool
  scpOk : Bool
  patchScpOk : Bool
  patchRunOk : Bool
  health : String
deriving DecidableEq

/-- `deploy_test_server`: the patch-script scp result is discarded by the
script (its `subprocess.run` result is unused), the patch run is checked,
and a non-`active` post-restart status makes the function return `False`
(lines 210-212). -/
def deploy_test_server (w : TSWorld) : Bool :=
  if ¬w.keyExists then false
  else if ¬w.localExists then false
  else if ¬w.scpOk then false
  else if ¬w.patchRunOk then false
  else if w.health = "active" then true
  else false

/-! ### `git_commit_before_deploy` (lines 384-451), `log_deploy` (lines 454-466), `main` (lines 469-564) -/

inductive DTarget where
  | ionos : DTarget
  | lightsail : DTarget
  | bridge : DTarget
  | test : DTarget
  | all : DTarget
deriving DecidableEq

structure Args where
  target : DTarget
  noCommit : Bool
  yes : Bool
  force : Bool
deriving DecidableEq

inductive Ev where
  | gitAdd : Ev
  | gitCommit : Ev
  | deployTest : Ev
  | runSuites : Ev
  | deployLightsailServer : Ev
  | deployIonosEv : Ev
  | bridgeCmd : BridgeCmd → Ev
  | logAppend : DTarget → String → Bool → Ev
deriving DecidableEq

inductive MMsg where
  | deployLogged : DTarget → String → Bool → MMsg
  | complete : MMsg
  | hadErrors : MMsg
  | noTrackedChanges : MMsg
  | gitStatusWarning : MMsg
deriving DecidableEq

structure MainRes where
  events : List Ev
  msgs : List MMsg
  exitCode : Nat
  head : String
deriving DecidableEq

structure World where
  gitStatusOk : Bool
  gitLines : List String
  commitOk : Bool
  headAfterCommit : String
  head0 : String
  revParseOk : Bool
  ts : TSWorld
  suiteOuts : List SuiteOutcome
  ls : LSWorld
  ionosOk : Bool
  bw : BridgeWorld
  logWriteOk : Bool

/-- `git_commit_before_deploy`: with a failed `git status` or no tracked
changes (`??` lines are untracked) nothing is staged or committed and HEAD
is untouched; otherwise `git add -u` and `git commit` run, and HEAD moves
only if the commit succeeds. -/
def gitPhase (w : World) : List Ev × List MMsg × String :=
  if ¬w.gitStatusOk then ([], [.gitStatusWarning], w.head0)
  else if w.gitLines.filter (fun l => !("??".data.isPrefixOf l.data)) = [] then
    ([], [.noTrackedChanges], w.head0)
  else ([.gitAdd, .gitCommit], [], if w.commitOk then w.headAfterCommit else w.head0)

/-- `log_deploy`: one transport append attempt; the transport's exit status
is captured and ignored, and the `Deploy logged` line is printed
unconditionally.  The `writeOk` argument is the ignored transport result. -/
def log_deploy (t : DTarget) (hash : String) (success : Bool) (writeOk : Bool) :
    List Ev × List MMsg :=
  ([.logAppend t hash success], [.deployLogged t hash success])

/-- Commit phase plus `git rev-parse --short HEAD` (lines 502-511): events,
messages, the resulting HEAD, and the hash recorded for the deploy log. -/
def gitAndHash (a : Args) (w : World) : List Ev × List MMsg × String × String :=
  let g := if a.noCommit then ([], [], w.head0) else gitPhase w
  (g.1, g.2.1, g.2.2, if w.revParseOk then g.2.2 else "unknown")

/-- Shared tail of `main` (lines 557-564): log the deploy, then exit 0 on
success and 1 otherwise. -/
def finishMain (a : Args) (w : World) (pre : List Ev) (preMsgs : List MMsg)
    (head : String) (hash : String) (success : Bool) : MainRes :=
  let lg := log_deploy a.target hash success w.logWriteOk
  { events := pre ++ lg.1
    msgs := preMsgs ++ lg.2 ++ [if success then .complete else .hadErrors]
    exitCode := if success then 0 else 1
    head := head }

/-- `main` (lines 469-564), without the `--list` mode.  The `test` target
never reaches the commit phase or the audit log; `all` runs the sandbox
gate before production and aborts with exit 1 unless `--force`;
`lightsail` mirrors to the sandbox non-blockingly; `bridge` is gated only
by `--yes`. -/
def mainModel (a : Args) (w : World) : MainRes :=
  match a.target with
  | .test =>
    if ¬ deploy_test_server w.ts then
      { events := [.deployTest], msgs := [], exitCode := 1, head := w.head0 }
    else if (run_test_suites w.suiteOuts).2.1 ≠ 0 then
      { events := [.deployTest, .runSuites], msgs := [], exitCode := 1, head := w.head0 }
    else
      { events := [.deployTest, .runSuites], msgs := [], exitCode := 0, head := w.head0 }
  | .all =>
    let g := gitAndHash a w
    let gate :=
      if deploy_test_server w.ts then
        if (run_test_suites w.suiteOuts).2.1 = 0 then ([Ev.deployTest, Ev.runSuites], true)
        else ([Ev.deployTest, Ev.runSuites], a.force)
      else ([Ev.deployTest], a.force)
    if gate.2 then
      let ls := deploy_lightsail_server w.ls
      let success := ls.1 && w.ionosOk
      finishMain a w (g.1 ++ gate.1 ++ [.deployLightsailServer, .deployIonosEv])
        g.2.1 g.2.2.1 g.2.2.2 success
    else
      { events := g.1 ++ gate.1, msgs := g.2.1, exitCode := 1, head := g.2.2.1 }
  | .lightsail =>
    let g := gitAndHash a w
    let r := (deploy_lightsail_server w.ls).1
    finishMain a w (g.1 ++ [.deployLightsailServer, .deployTest]) g.2.1 g.2.2.1 g.2.2.2 r
  | .bridge =>
    let g := gitAndHash a w
    let b := deploy_lightsail_bridge a.yes w.bw
    finishMain a w (g.1 ++ b.2.map .bridgeCmd) g.2.1 g.2.2.1 g.2.2.2 b.1
  | .ionos =>
    let g := gitAndHash a w
    finishMain a w (g.1 ++ [.deployIonosEv]) g.2.1 g.2.2.1 g.2.2.2 w.ionosOk

/-! ## Lemmas: path strings and the two exclusion predicates -/

theorem pathChars_single (x : Seg) : pathChars [x] = x := by
  simp [pathChars, List.intercalate]

theorem pathChars_cons_cons (x y : Seg) (p : RPath) :
    pathChars (x :: y :: p) = x ++ sepC :: pathChars (y :: p) := by
  simp [pathChars, List.intercalate]

theorem mem_infix_pathChars {x : Seg} {p : RPath} (h : x ∈ p) : x <:+: pathChars p := by
  induction p with
  | nil => cases h
  | cons y q ih =>
    rcases List.mem_cons.mp h with rfl | hx
    · cases q with
      | nil => rw [pathChars_single]
      | cons z q' =>
        rw [pathChars_cons_cons]
        exact (List.prefix_append x _).isInfix
    · cases q with
      | nil => cases hx
      | cons z q' =>
        rw [pathChars_cons_cons]
        exact (ih hx).trans ⟨y ++ [sepC], [], by simp⟩

theorem pref_of_pref_sep {s x r : List Char} (hs : sepC ∉ s)
    (h : s <+: x ++ sepC :: r) : s <+: x := by
  induction x generalizing s with
  | nil =>
    cases s with
    | nil => exact List.nil_prefix
    | cons a s' =>
      exfalso
      obtain ⟨t, ht⟩ := h
      rw [List.nil_append, List.cons_append] at ht
      injection ht with h1 _
      exact hs (h1 ▸ List.mem_cons_self _ _)
  | cons b x' ih =>
    cases s with
    | nil => exact List.nil_prefix
    | cons a s' =>
      obtain ⟨t, ht⟩ := h
      rw [List.cons_append, List.cons_append] at ht
      injection ht with h1 h2
      subst h1
      have hp := ih (fun hm => hs (List.mem_cons_of_mem _ hm)) ⟨t, h2⟩
      exact List.cons_prefix_cons.mpr ⟨rfl, hp⟩

theorem infix_sep_cases {s x r : List Char} (hs : sepC ∉ s)
    (h : s <:+: x ++ sepC :: r) : s <:+: x ∨ s <:+: r := by
  induction x generalizing s with
  | nil =>
    rw [List.nil_append] at h
    rcases List.infix_cons_iff.mp h with hp | hi
    · cases s with
      | nil => exact Or.inl List.nil_infix
      | cons a s' =>
        exfalso
        obtain ⟨t, ht⟩ := hp
        rw [List.cons_append] at ht
        injection ht with h1 _
        exact hs (h1 ▸ List.mem_cons_self _ _)
    · exact Or.inr hi
  | cons b x' ih =>
    rw [List.cons_append] at h
    rcases List.infix_cons_iff.mp h with hp | hi
    · cases s with
      | nil => exact Or.inl List.nil_infix
      | cons a s' =>
        obtain ⟨t, ht⟩ := hp
        rw [List.cons_append] at ht
        injection ht with h1 h2
        subst h1
        have hp' := pref_of_pref_sep (fun hm => hs (List.mem_cons_of_mem _ hm)) ⟨t, h2⟩
        exact Or.inl (List.cons_prefix_cons.mpr ⟨rfl, hp'⟩).isInfix
    · rcases ih hs hi with h1 | h2
      · exact Or.inl (List.infix_cons h1)
      · exact Or.inr h2

theorem infix_pathChars_cases {s : List Char} {p : RPath} (hs : sepC ∉ s)
    (hp : p ≠ []) (h : s <:+: pathChars p) : ∃ x ∈ p, s <:+: x := by
  induction p with
  | nil => exact absurd rfl hp
  | cons y q ih =>
    cases q with
    | nil =>
      rw [pathChars_single] at h
      exact ⟨y, List.mem_cons_self _ _, h⟩
    | cons z q' =>
      rw [pathChars_cons_cons] at h
      rcases infix_sep_cases hs h with h1 | h2
      · exact ⟨y, List.mem_cons_self _ _, h1⟩
      · obtain ⟨x, hx, hxs⟩ := ih (by simp) h2
        exact ⟨x, List.mem_cons_of_mem _ hx, hxs⟩

theorem specPatMatches_imp_patMatches {pat : List Char} {p : RPath}
    (h : specPatMatches pat p) : patMatches pat (pathChars p) = true := by
  unfold specPatMatches at h
  unfold patMatches
  split_ifs at h ⊢ with h1 h2
  · obtain ⟨x, hx, hxs⟩ := h
    exact decide_eq_true (hxs.trans (mem_infix_pathChars hx))
  · exact decide_eq_true h
  · exact decide_eq_true h

theorem patMatches_imp_specPatMatches {pat : List Char} {p : RPath}
    (hgood : pat.getLast? = some sepC → sepC ∉ pat.dropLast) (hp : p ≠ [])
    (h : patMatches pat (pathChars p) = true) : specPatMatches pat p := by
  unfold patMatches at h
  unfold specPatMatches
  split_ifs at h ⊢ with h1 h2
  · exact infix_pathChars_cases (hgood h1) hp (of_decide_eq_true h)
  · exact of_decide_eq_true h
  · exact of_decide_eq_true h

theorem specExcluded_imp_should_exclude {pats : List (List Char)} {p : RPath}
    (h : specExcluded pats p) : should_exclude pats (pathChars p) = true := by
  obtain ⟨pat, hmem, hm⟩ := h
  unfold should_exclude
  rw [List.any_eq_true]
  exact ⟨pat, hmem, specPatMatches_imp_patMatches hm⟩

theorem should_exclude_imp_specExcluded {pats : List (List Char)} {p : RPath}
    (hgood : stemSlashFree pats) (hp : p ≠ [])
    (h : should_exclude pats (pathChars p) = true) : specExcluded pats p := by
  unfold should_exclude at h
  rw [List.any_eq_true] at h
  obtain ⟨pat, hmem, hm⟩ := h
  exact ⟨pat, hmem, patMatches_imp_specPatMatches (hgood pat hmem) hp hm⟩

/-! ## Lemmas: prefix bookkeeping and trace properties -/

theorem pref_of_strict_pref_dropLast {q p : RPath} (h : q <+: p) (hne : q ≠ p) :
    q <+: p.dropLast := by
  obtain ⟨t, ht⟩ := h
  cases t using List.reverseRecOn with
  | nil => exact absurd (by rw [← ht, List.append_nil]) hne
  | append_singleton t' z =>
    have hd : p.dropLast = q ++ t' := by
      rw [← ht, ← List.append_assoc, List.dropLast_concat]
    rw [hd]
    exact List.prefix_append q t'

theorem strict_pref_mem_of_closed {p : RPath} {ds : List RPath} (hc : closedDirs ds)
    (hpar : p.length ≤ 1 ∨ p.dropLast ∈ ds) :
    ∀ q, q <+: p → q ≠ p → q ≠ [] → q ∈ ds := by
  intro q hq hne hq0
  rcases hpar with h1 | h2
  · exfalso
    have hle := hq.length_le
    have hlt : q.length < p.length := by
      rcases lt_or_eq_of_le hle with h | h
      · exact h
      · exact absurd (hq.eq_of_length h) hne
    have : q.length = 0 := by omega
    exact hq0 (List.eq_nil_of_length_eq_zero this)
  · exact hc _ h2 q (pref_of_strict_pref_dropLast hq hne) hq0

theorem snoc_eq_append_cons {α : Type} {t l₁ l₂ : List α} {x y : α}
    (h : t ++ [x] = l₁ ++ y :: l₂) :
    (l₂ = [] ∧ l₁ = t ∧ y = x) ∨ ∃ l₂', l₂ = l₂' ++ [x] ∧ t = l₁ ++ y :: l₂' := by
  cases l₂ using List.reverseRecOn with
  | nil =>
    have h' : t ++ [x] = l₁ ++ [y] := by rw [h]
    obtain ⟨h1, h2⟩ := List.append_inj' h' (by simp)
    injection h2 with h3 _
    exact Or.inl ⟨rfl, h1.symm, h3.symm⟩
  | append_singleton l₂' z =>
    have h' : t ++ [x] = (l₁ ++ y :: l₂') ++ [z] := by
      rw [h]; simp
    obtain ⟨h1, h2⟩ := List.append_inj' h' (by simp)
    injection h2 with h3 _
    exact Or.inr ⟨l₂', by rw [h3], h1⟩

theorem parentBefore_nil : parentBefore [] := by
  intro l₁ P l₂ h
  exact absurd h (by simp)

theorem parentBefore_snoc_other {t : List Op} {op : Op}
    (hpb : parentBefore t) (hop : ∀ P, op ≠ Op.mkdir P) :
    parentBefore (t ++ [op]) := by
  intro l₁ P l₂ heq op' hop' r hr
  rcases snoc_eq_append_cons heq with ⟨_, _, hyx⟩ | ⟨l₂', _, ht⟩
  · exact absurd hyx.symm (hop P)
  · exact hpb l₁ P l₂' ht op' hop' r hr

theorem parentBefore_snoc_mkdir {t : List Op} {P : RPath}
    (hpb : parentBefore t)
    (hnew : ∀ op ∈ t, ∀ r, opTarget op = some r → ¬(P <+: r ∧ P ≠ r)) :
    parentBefore (t ++ [Op.mkdir P]) := by
  intro l₁ Q l₂ heq op hop r hr
  rcases snoc_eq_append_cons heq with ⟨_, hl₁, hyx⟩ | ⟨l₂', _, ht⟩
  · injection hyx with hQP
    subst hQP
    exact hnew op (hl₁ ▸ hop) r hr
  · exact hpb l₁ Q l₂' ht op hop r hr

theorem probeBefore_nil : probeBefore [] := by
  intro l₁ P l₂ h
  exact absurd h (by simp)

theorem probeBefore_snoc_other {t : List Op} {op : Op}
    (hq : probeBefore t) (hop : ∀ P, op ≠ Op.mkdir P) :
    probeBefore (t ++ [op]) := by
  intro l₁ P l₂ heq
  rcases snoc_eq_append_cons heq with ⟨_, _, hyx⟩ | ⟨l₂', _, ht⟩
  · exact absurd hyx.symm (hop P)
  · exact hq l₁ P l₂' ht

theorem probeBefore_snoc_mkdir {t : List Op} {P : RPath}
    (hq : probeBefore t) (hlast : ∃ t₀, t = t₀ ++ [Op.statDir P]) :
    probeBefore (t ++ [Op.mkdir P]) := by
  intro l₁ Q l₂ heq
  rcases snoc_eq_append_cons heq with ⟨_, hl₁, hyx⟩ | ⟨l₂', _, ht⟩
  · injection hyx with hQP
    subst hQP
    obtain ⟨t₀, ht₀⟩ := hlast
    exact ⟨t₀, by rw [hl₁, ht₀]⟩
  · exact hq l₁ Q l₂' ht

/-! ## Lemmas: transport primitives -/

theorem noFail_succ {cfg : SyncCfg} {st : SyncSt}
    (h : ∀ i, i < st.opCount → cfg.failAt i = false)
    (hnow : cfg.failAt st.opCount = false) :
    ∀ i, i < st.opCount + 1 → cfg.failAt i = false := by
  intro i hi
  rcases Nat.lt_succ_iff_lt_or_eq.mp hi with h1 | rfl
  · exact h i h1
  · exact hnow

theorem statDir_ne_mkdir (p : RPath) : ∀ P, Op.statDir p ≠ Op.mkdir P :=
  fun _ h => Op.noConfusion h

theorem putFile_ne_mkdir (p : RPath) : ∀ P, Op.putFile p ≠ Op.mkdir P :=
  fun _ h => Op.noConfusion h

theorem supported_snoc_stat {cfg : SyncCfg} {st : SyncSt} (hInv : SyncInv cfg st) (p : RPath) :
    ∀ op ∈ st.trace ++ [Op.statDir p], ∀ r, opTarget op = some r →
      ∀ P, P <+: r → P ≠ r → P ≠ [] → P ∈ st.remoteDirs := by
  intro op hop r hr
  rcases List.mem_append.mp hop with hold | hnew
  · exact hInv.supported op hold r hr
  · rw [List.mem_singleton.mp hnew] at hr
    exact absurd hr (by simp [opTarget])

theorem stat_record_inv {cfg : SyncCfg} {st : SyncSt} (hInv : SyncInv cfg st) (p : RPath)
    (hnow : cfg.failAt st.opCount = false) :
    SyncInv cfg { st with trace := st.trace ++ [Op.statDir p], opCount := st.opCount + 1 } :=
  ⟨hInv.closed, supported_snoc_stat hInv p,
    parentBefore_snoc_other hInv.pb (statDir_ne_mkdir p),
    probeBefore_snoc_other hInv.probe (statDir_ne_mkdir p),
    noFail_succ hInv.noFail hnow, hInv.noSum⟩

theorem doStat_ok_inv {cfg : SyncCfg} {p : RPath} {st : SyncSt} {res : StatRes} {s : SyncSt}
    (hInv : SyncInv cfg st) (h : doStat cfg p st = .ok (res, s)) :
    SyncInv cfg s ∧ s.remoteDirs = st.remoteDirs ∧ s.msgs = st.msgs ∧
      s.uploaded = st.uploaded ∧ s.trace = st.trace ++ [Op.statDir p] ∧
      s.opCount = st.opCount + 1 ∧ (res = StatRes.found ↔ p ∈ st.remoteDirs) := by
  unfold doStat at h
  split_ifs at h with h1 h2
  · simp only [Except.ok.injEq, Prod.mk.injEq] at h
    obtain ⟨hres, hs⟩ := h
    subst hres
    subst hs
    exact ⟨stat_record_inv hInv p (by simpa using h1), rfl, rfl, rfl, rfl, rfl, by simp [h2]⟩
  · simp only [Except.ok.injEq, Prod.mk.injEq] at h
    obtain ⟨hres, hs⟩ := h
    subst hres
    subst hs
    exact ⟨stat_record_inv hInv p (by simpa using h1), rfl, rfl, rfl, rfl, rfl, by simp [h2]⟩

theorem doStat_err_post {cfg : SyncCfg} {p : RPath} {st : SyncSt} {s : SyncSt}
    (hInv : SyncInv cfg st) (h : doStat cfg p st = .error s) : ErrPost cfg s := by
  unfold doStat at h
  split_ifs at h with h1
  simp only [Except.error.injEq] at h
  subst h
  refine ⟨parentBefore_snoc_other hInv.pb (statDir_ne_mkdir p),
    probeBefore_snoc_other hInv.probe (statDir_ne_mkdir p), ?_, hInv.noSum⟩
  intro i hi
  exact hInv.noFail i (by simpa using hi)

theorem doMkdir_ok_inv {cfg : SyncCfg} {p : RPath} {st : SyncSt} {s : SyncSt}
    (hInv : SyncInv cfg st) (hp0 : p ≠ []) (hnot : p ∉ st.remoteDirs)
    (hlast : ∃ t₀, st.trace = t₀ ++ [Op.statDir p])
    (h : doMkdir cfg p st = .ok s) :
    SyncInv cfg s ∧ s.remoteDirs = p :: st.remoteDirs ∧ s.msgs = st.msgs ∧
      s.uploaded = st.uploaded ∧ s.trace = st.trace ++ [Op.mkdir p] := by
  unfold doMkdir at h
  split_ifs at h with h1 h2
  simp only [Except.ok.injEq] at h
  subst h
  have hstrict := strict_pref_mem_of_closed hInv.closed h2
  refine ⟨⟨?_, ?_, ?_, ?_, ?_, hInv.noSum⟩, rfl, rfl, rfl, rfl⟩
  · intro x hx q hq hq0
    rcases List.mem_cons.mp hx with rfl | hx'
    · rcases eq_or_ne q x with rfl | hne
      · exact List.mem_cons_self _ _
      · exact List.mem_cons_of_mem _ (hstrict q hq hne hq0)
    · exact List.mem_cons_of_mem _ (hInv.closed x hx' q hq hq0)
  · intro op hop r hr P hP hPne hP0
    rcases List.mem_append.mp hop with hold | hnew
    · exact List.mem_cons_of_mem _ (hInv.supported op hold r hr P hP hPne hP0)
    · rw [List.mem_singleton.mp hnew] at hr
      simp only [opTarget, Option.some.injEq] at hr
      subst hr
      exact List.mem_cons_of_mem _ (hstrict P hP hPne hP0)
  · refine parentBefore_snoc_mkdir hInv.pb ?_
    intro op hop r hr hcontra
    exact hnot (hInv.supported op hop r hr p hcontra.1 hcontra.2 hp0)
  · exact probeBefore_snoc_mkdir hInv.probe hlast
  · exact noFail_succ hInv.noFail (by simpa using h1)

theorem doMkdir_err_post {cfg : SyncCfg} {p : RPath} {st : SyncSt} {s : SyncSt}
    (hInv : SyncInv cfg st) (hp0 : p ≠ []) (hnot : p ∉ st.remoteDirs)
    (hlast : ∃ t₀, st.trace = t₀ ++ [Op.statDir p])
    (h : doMkdir cfg p st = .error s) : ErrPost cfg s := by
  have hpb : parentBefore (st.trace ++ [Op.mkdir p]) := by
    refine parentBefore_snoc_mkdir hInv.pb ?_
    intro op hop r hr hcontra
    exact hnot (hInv.supported op hop r hr p hcontra.1 hcontra.2 hp0)
  have hprobe : probeBefore (st.trace ++ [Op.mkdir p]) :=
    probeBefore_snoc_mkdir hInv.probe hlast
  unfold doMkdir at h
  split_ifs at h with h1 h2
  · simp only [Except.error.injEq] at h
    subst h
    refine ⟨hpb, hprobe, ?_, hInv.noSum⟩
    intro i hi
    exact hInv.noFail i (by simpa using hi)
  · simp only [Except.error.injEq] at h
    subst h
    refine ⟨hpb, hprobe, ?_, hInv.noSum⟩
    intro i hi
    exact hInv.noFail i (by simpa using hi)

theorem noSum_snoc_uploading {cfg : SyncCfg} {st : SyncSt} (hInv : SyncInv cfg st) (p : RPath) :
    ∀ k, Msg.uploadedSummary k ∉ st.msgs ++ [Msg.uploading p] := by
  intro k hk
  rcases List.mem_append.mp hk with hold | hnew
  · exact hInv.noSum k hold
  · exact Msg.noConfusion (List.mem_singleton.mp hnew)

theorem doPut_ok_inv {cfg : SyncCfg} {p : RPath} {st : SyncSt} {s : SyncSt}
    (hInv : SyncInv cfg st) (hpar : p.dropLast = [] ∨ p.dropLast ∈ st.remoteDirs)
    (h : doPut cfg p st = .ok s) :
    SyncInv cfg s ∧ s.remoteDirs = st.remoteDirs ∧
      s.trace = st.trace ++ [Op.putFile p] ∧
      s.msgs = st.msgs ++ [Msg.uploading p] ∧ s.uploaded = st.uploaded + 1 := by
  unfold doPut at h
  split_ifs at h with h1
  simp only [Except.ok.injEq] at h
  subst h
  refine ⟨⟨hInv.closed, ?_, ?_, ?_, ?_, noSum_snoc_uploading hInv p⟩, rfl, rfl, rfl, rfl⟩
  · intro op hop r hr P hP hPne hP0
    rcases List.mem_append.mp hop with hold | hnew
    · exact hInv.supported op hold r hr P hP hPne hP0
    · rw [List.mem_singleton.mp hnew] at hr
      simp only [opTarget, Option.some.injEq] at hr
      subst hr
      have hP' := pref_of_strict_pref_dropLast hP hPne
      rcases hpar with h2 | h2
      · rw [h2] at hP'
        exact absurd (List.prefix_nil.mp hP') hP0
      · exact hInv.closed _ h2 P hP' hP0
  · exact parentBefore_snoc_other hInv.pb (putFile_ne_mkdir p)
  · exact probeBefore_snoc_other hInv.probe (putFile_ne_mkdir p)
  · exact noFail_succ hInv.noFail (by simpa using h1)

theorem doPut_err_post {cfg : SyncCfg} {p : RPath} {st : SyncSt} {s : SyncSt}
    (hInv : SyncInv cfg st) (h : doPut cfg p st = .error s) : ErrPost cfg s := by
  unfold doPut at h
  split_ifs at h with h1
  simp only [Except.error.injEq] at h
  subst h
  refine ⟨parentBefore_snoc_other hInv.pb (putFile_ne_mkdir p),
    probeBefore_snoc_other hInv.probe (putFile_ne_mkdir p), ?_,
    noSum_snoc_uploading hInv p⟩
  intro i hi
  exact hInv.noFail i (by simpa using hi)

/-! ## Lemmas: the synchronizer walk preserves the invariant -/

theorem ensureDirs_inv {cfg : SyncCfg} :
    ∀ (rest : List Seg) (b : RPath) (st : SyncSt), SyncInv cfg st →
      (b = [] ∨ b ∈ st.remoteDirs) →
      (∀ s, ensureDirs cfg b rest st = .ok s →
        SyncInv cfg s ∧ (b ++ rest = [] ∨ b ++ rest ∈ s.remoteDirs)) ∧
      (∀ s, ensureDirs cfg b rest st = .error s → ErrPost cfg s) := by
  intro rest
  induction rest with
  | nil =>
    intro b st hInv hb
    constructor
    · intro s hs
      simp only [ensureDirs, Except.ok.injEq] at hs
      subst hs
      rw [List.append_nil]
      exact ⟨hInv, hb⟩
    · intro s hs
      simp only [ensureDirs] at hs
      exact absurd hs (by simp)
  | cons a rest' ih =>
    intro b st hInv hb
    have hcons : b ++ a :: rest' = (b ++ [a]) ++ rest' := by simp
    rcases hst : doStat cfg (b ++ [a]) st with s₀ | ⟨res, s₀⟩
    · have heq : ensureDirs cfg b (a :: rest') st = .error s₀ := by
        simp only [ensureDirs, hst]
      rw [heq]
      constructor
      · intro s hs
        exact absurd hs (by simp)
      · intro s hs
        simp only [Except.error.injEq] at hs
        subst hs
        exact doStat_err_post hInv hst
    · obtain ⟨hInv₀, hdirs, -, -, htr, -, hiff⟩ := doStat_ok_inv hInv hst
      cases res with
      | found =>
        have hmem : b ++ [a] ∈ st.remoteDirs := hiff.mp rfl
        have heq : ensureDirs cfg b (a :: rest') st = ensureDirs cfg (b ++ [a]) rest' s₀ := by
          simp only [ensureDirs, hst]
        rw [heq, hcons]
        exact ih (b ++ [a]) s₀ hInv₀ (Or.inr (hdirs ▸ hmem))
      | notFound =>
        have hnot : b ++ [a] ∉ st.remoteDirs := by
          intro hmem
          simpa using hiff.mpr hmem
        have hnot₀ : b ++ [a] ∉ s₀.remoteDirs := hdirs ▸ hnot
        have hlast : ∃ t₀, s₀.trace = t₀ ++ [Op.statDir (b ++ [a])] := ⟨st.trace, htr⟩
        have hne : b ++ [a] ≠ [] := by simp
        rcases hmk : doMkdir cfg (b ++ [a]) s₀ with s₁ | s₁
        · have heq : ensureDirs cfg b (a :: rest') st = .error s₁ := by
            simp only [ensureDirs, hst, hmk]
          rw [heq]
          constructor
          · intro s hs
            exact absurd hs (by simp)
          · intro s hs
            simp only [Except.error.injEq] at hs
            subst hs
            exact doMkdir_err_post hInv₀ hne hnot₀ hlast hmk
        · obtain ⟨hInv₁, hdirs₁, -, -, -⟩ := doMkdir_ok_inv hInv₀ hne hnot₀ hlast hmk
          have heq : ensureDirs cfg b (a :: rest') st = ensureDirs cfg (b ++ [a]) rest' s₁ := by
            simp only [ensureDirs, hst, hmk]
          rw [heq, hcons]
          refine ih (b ++ [a]) s₁ hInv₁ (Or.inr ?_)
          rw [hdirs₁]
          exact List.mem_cons_self _ _

theorem uploadFile_inv {cfg : SyncCfg} {p : RPath} {st : SyncSt}
    (hp0 : p ≠ []) (hInv : SyncInv cfg st) :
    (∀ s, uploadFile cfg p st = .ok s → SyncInv cfg s) ∧
    (∀ s, uploadFile cfg p st = .error s → ErrPost cfg s) := by
  by_cases hd : p.dropLast = []
  · have heq : uploadFile cfg p st = doPut cfg p st := by
      simp only [uploadFile, if_pos hd]
    rw [heq]
    exact ⟨fun s hs => (doPut_ok_inv hInv (Or.inl hd) hs).1,
      fun s hs => doPut_err_post hInv hs⟩
  · rcases hst : doStat cfg p.dropLast st with s₀ | ⟨res, s₀⟩
    · have heq : uploadFile cfg p st = .error s₀ := by
        simp only [uploadFile, if_neg hd, hst]
      rw [heq]
      constructor
      · intro s hs
        exact absurd hs (by simp)
      · intro s hs
        simp only [Except.error.injEq] at hs
        subst hs
        exact doStat_err_post hInv hst
    · obtain ⟨hInv₀, hdirs, -, -, htr, -, hiff⟩ := doStat_ok_inv hInv hst
      cases res with
      | found =>
        have hmem : p.dropLast ∈ s₀.remoteDirs := hdirs ▸ hiff.mp rfl
        have heq : uploadFile cfg p st = doPut cfg p s₀ := by
          simp only [uploadFile, if_neg hd, hst]
        rw [heq]
        exact ⟨fun s hs => (doPut_ok_inv hInv₀ (Or.inr hmem) hs).1,
          fun s hs => doPut_err_post hInv₀ hs⟩
      | notFound =>
        rcases hch : ensureDirs cfg [] p.dropLast s₀ with s₁ | s₁
        · have heq : uploadFile cfg p st = .error s₁ := by
            simp only [uploadFile, if_neg hd, hst, hch]
          rw [heq]
          constructor
          · intro s hs
            exact absurd hs (by simp)
          · intro s hs
            simp only [Except.error.injEq] at hs
            subst hs
            exact (ensureDirs_inv p.dropLast [] s₀ hInv₀ (Or.inl rfl)).2 s₁ hch
        · obtain ⟨hInv₁, hmem₁⟩ :=
            (ensureDirs_inv p.dropLast [] s₀ hInv₀ (Or.inl rfl)).1 s₁ hch
          rw [List.nil_append] at hmem₁
          have hmem : p.dropLast ∈ s₁.remoteDirs := by
            rcases hmem₁ with h | h
            · exact absurd h hd
            · exact h
          have heq : uploadFile cfg p st = doPut cfg p s₁ := by
            simp only [uploadFile, if_neg hd, hst, hch]
          rw [heq]
          exact ⟨fun s hs => (doPut_ok_inv hInv₁ (Or.inr hmem) hs).1,
            fun s hs => doPut_err_post hInv₁ hs⟩

mutual

theorem upload_path_inv (cfg : SyncCfg) (p : RPath) (n : FSNode) (st : SyncSt)
    (hp0 : p ≠ []) (hInv : SyncInv cfg st) :
    (∀ s, upload_path cfg p n st = .ok s → SyncInv cfg s) ∧
    (∀ s, upload_path cfg p n st = .error s → ErrPost cfg s) := by
  by_cases hex : should_exclude cfg.pats (pathChars p) = true
  · have heq : upload_path cfg p n st = .ok st := by
      unfold upload_path
      rw [if_pos hex]
    rw [heq]
    constructor
    · intro s hs
      simp only [Except.ok.injEq] at hs
      subst hs
      exact hInv
    · intro s hs
      exact absurd hs (by simp)
  · cases n with
    | file =>
      have heq : upload_path cfg p .file st = uploadFile cfg p st := by
        unfold upload_path
        rw [if_neg hex]
      rw [heq]
      exact uploadFile_inv hp0 hInv
    | dir cs =>
      rcases hst : doStat cfg p st with s₀ | ⟨res, s₀⟩
      · have heq : upload_path cfg p (.dir cs) st = .error s₀ := by
          unfold upload_path
          rw [if_neg hex, hst]
        rw [heq]
        constructor
        · intro s hs
          exact absurd hs (by simp)
        · intro s hs
          simp only [Except.error.injEq] at hs
          subst hs
          exact doStat_err_post hInv hst
      · obtain ⟨hInv₀, hdirs, -, -, htr, -, hiff⟩ := doStat_ok_inv hInv hst
        cases res with
        | found =>
          have heq : upload_path cfg p (.dir cs) st = uploadChildren cfg p cs s₀ := by
            unfold upload_path
            rw [if_neg hex, hst]
          rw [heq]
          exact uploadChildren_inv cfg p cs s₀ hInv₀
        | notFound =>
          have hnot : p ∉ st.remoteDirs := by
            intro hmem
            simpa using hiff.mpr hmem
          have hnot₀ : p ∉ s₀.remoteDirs := hdirs ▸ hnot
          have hlast : ∃ t₀, s₀.trace = t₀ ++ [Op.statDir p] := ⟨st.trace, htr⟩
          rcases hmk : doMkdir cfg p s₀ with s₁ | s₁
          · have heq : upload_path cfg p (.dir cs) st = .error s₁ := by
              unfold upload_path
              rw [if_neg hex, hst]
              dsimp only
              rw [hmk]
            rw [heq]
            constructor
            · intro s hs
              exact absurd hs (by simp)
            · intro s hs
              simp only [Except.error.injEq] at hs
              subst hs
              exact doMkdir_err_post hInv₀ hp0 hnot₀ hlast hmk
          · obtain ⟨hInv₁, -, -, -, -⟩ := doMkdir_ok_inv hInv₀ hp0 hnot₀ hlast hmk
            have heq : upload_path cfg p (.dir cs) st = uploadChildren cfg p cs s₁ := by
              unfold upload_path
              rw [if_neg hex, hst]
              dsimp only
              rw [hmk]
            rw [heq]
            exact uploadChildren_inv cfg p cs s₁ hInv₁

theorem uploadChildren_inv (cfg : SyncCfg) (p : RPath) (cs : FSList) (st : SyncSt)
    (hInv : SyncInv cfg st) :
    (∀ s, uploadChildren cfg p cs st = .ok s → SyncInv cfg s) ∧
    (∀ s, uploadChildren cfg p cs st = .error s → ErrPost cfg s) := by
  cases cs with
  | nil =>
    constructor
    · intro s hs
      simp only [uploadChildren, Except.ok.injEq] at hs
      subst hs
      exact hInv
    · intro s hs
      simp only [uploadChildren] at hs
      exact absurd hs (by simp)
  | cons name n rest =>
    rcases hup : upload_path cfg (p ++ [name]) n st with s₀ | s₀
    · have heq : uploadChildren cfg p (.cons name n rest) st = .error s₀ := by
        unfold uploadChildren
        rw [hup]
      rw [heq]
      constructor
      · intro s hs
        exact absurd hs (by simp)
      · intro s hs
        simp only [Except.error.injEq] at hs
        subst hs
        exact (upload_path_inv cfg (p ++ [name]) n st (by simp) hInv).2 s₀ hup
    · have hInv₀ := (upload_path_inv cfg (p ++ [name]) n st (by simp) hInv).1 s₀ hup
      have heq : uploadChildren cfg p (.cons name n rest) st =
          uploadChildren cfg p rest s₀ := by
        conv_lhs => unfold uploadChildren
        rw [hup]
      rw [heq]
      exact uploadChildren_inv cfg p rest s₀ hInv₀

end

theorem uploadEntries_inv {cfg : SyncCfg} {root : FSNode} :
    ∀ (es : List RPath) (st : SyncSt), SyncInv cfg st → (∀ e ∈ es, e ≠ []) →
      (∀ s, uploadEntries cfg root es st = .ok s → SyncInv cfg s) ∧
      (∀ s, uploadEntries cfg root es st = .error s → ErrPost cfg s) := by
  intro es
  induction es with
  | nil =>
    intro st hInv _
    constructor
    · intro s hs
      simp only [uploadEntries, Except.ok.injEq] at hs
      subst hs
      exact hInv
    · intro s hs
      simp only [uploadEntries] at hs
      exact absurd hs (by simp)
  | cons e rest ih =>
    intro st hInv hEs
    have he : e ≠ [] := hEs e (List.mem_cons_self _ _)
    have hEs' : ∀ x ∈ rest, x ≠ [] := fun x hx => hEs x (List.mem_cons_of_mem _ hx)
    rcases hlk : lookupNode root e with _ | n
    · have heq : uploadEntries cfg root (e :: rest) st = uploadEntries cfg root rest st := by
        simp only [uploadEntries, hlk]
      rw [heq]
      exact ih st hInv hEs'
    · rcases hup : upload_path cfg e n st with s₀ | s₀
      · have heq : uploadEntries cfg root (e :: rest) st = .error s₀ := by
          simp only [uploadEntries, hlk, hup]
        rw [heq]
        constructor
        · intro s hs
          exact absurd hs (by simp)
        · intro s hs
          simp only [Except.error.injEq] at hs
          subst hs
          exact (upload_path_inv cfg e n st he hInv).2 s₀ hup
      · have hInv₀ := (upload_path_inv cfg e n st he hInv).1 s₀ hup
        have heq : uploadEntries cfg root (e :: rest) st = uploadEntries cfg root rest s₀ := by
          simp only [uploadEntries, hlk, hup]
        rw [heq]
        exact ih s₀ hInv₀ hEs'

theorem initial_inv (cfg : SyncCfg) (init : List RPath) (hclosed : closedDirs init) :
    SyncInv cfg ⟨init, [], [], 0, 0⟩ :=
  ⟨hclosed, fun op hop => absurd hop (List.not_mem_nil op), parentBefore_nil,
    probeBefore_nil, fun i hi => absurd hi (Nat.not_lt_zero i),
    fun _ hk => absurd hk (List.not_mem_nil _)⟩

/-! ## Lemmas: `deploy_ionos` run analysis -/

theorem deploy_ionos_ok_case {cfg : SyncCfg} {root : FSNode} {es : List RPath}
    {init : List RPath} {st : SyncSt}
    (hrun : uploadEntries cfg root es ⟨init, [], [], 0, 0⟩ = .ok st) :
    deploy_ionos cfg root es init =
      (true, { st with msgs := st.msgs ++ [Msg.uploadedSummary st.uploaded] }) := by
  unfold deploy_ionos
  rw [hrun]

theorem deploy_ionos_err_case {cfg : SyncCfg} {root : FSNode} {es : List RPath}
    {init : List RPath} {st : SyncSt}
    (hrun : uploadEntries cfg root es ⟨init, [], [], 0, 0⟩ = .error st) :
    deploy_ionos cfg root es init = (false, { st with msgs := st.msgs ++ [Msg.sftpError] }) := by
  unfold deploy_ionos
  rw [hrun]

/-- C4: parent-before-child invariant of the recursive synchronizer.  For any
exclusion patterns, failure schedule, local tree, include list (of nonempty
paths) and ancestor-closed initial remote state: in the trace of remote
operations produced by `deploy_ionos` — whether the run succeeds or aborts —
no file upload or directory creation targeting a path strictly below `P`
ever precedes a `mkdir` of `P`, and every `mkdir` immediately follows the
`stat` probe of the same path (probe-then-create, which makes ancestor
creation root-to-leaf). -/
theorem c4_parent_before_child (cfg : SyncCfg) (root : FSNode) (es : List RPath)
    (init : List RPath) (hclosed : closedDirs init) (hEs : ∀ e ∈ es, e ≠ []) :
    parentBefore (deploy_ionos cfg root es init).2.trace ∧
    probeBefore (deploy_ionos cfg root es init).2.trace := by
  have h0 := initial_inv cfg init hclosed
  rcases hrun : uploadEntries cfg root es ⟨init, [], [], 0, 0⟩ with st | st
  · have hpost := (uploadEntries_inv es _ h0 hEs).2 st hrun
    rw [deploy_ionos_err_case hrun]
    exact ⟨hpost.pb, hpost.probe⟩
  · have hInv := (uploadEntries_inv es _ h0 hEs).1 st hrun
    rw [deploy_ionos_ok_case hrun]
    exact ⟨hInv.pb, hInv.probe⟩

/-- C4 witness: the theorem applied at the script's include list and
exclusion patterns, an empty local tree, no scheduled failures, and an empty
remote state. -/
theorem c4_parent_before_child_witness :
    parentBefore (deploy_ionos ⟨IONOS_EXCLUDE, fun _ => false⟩ (.dir .nil)
        IONOS_DEPLOY_FILES []).2.trace ∧
    probeBefore (deploy_ionos ⟨IONOS_EXCLUDE, fun _ => false⟩ (.dir .nil)
        IONOS_DEPLOY_FILES []).2.trace :=
  c4_parent_before_child ⟨IONOS_EXCLUDE, fun _ => false⟩ (.dir .nil) IONOS_DEPLOY_FILES []
    (by intro p hp; cases hp) (by decide)

/-- C6 (amended): the first transport failure aborts the whole
synchronization — every call attempted before the last one succeeded, so no
operation at all follows the first scheduled failure — and `deploy_ionos`
returns `False` instead of raising, reporting `SFTP Error`; but the
accumulated uploaded count is printed only on success, not with the
failure. -/
theorem c6_first_failure_aborts (cfg : SyncCfg) (root : FSNode) (es : List RPath)
    (init : List RPath) (hclosed : closedDirs init) (hEs : ∀ e ∈ es, e ≠ []) :
    (∀ i, i < (deploy_ionos cfg root es init).2.opCount → cfg.failAt i = true →
      (deploy_ionos cfg root es init).1 = false ∧
      i + 1 = (deploy_ionos cfg root es init).2.opCount) ∧
    ((deploy_ionos cfg root es init).1 = false →
      Msg.sftpError ∈ (deploy_ionos cfg root es init).2.msgs ∧
      ∀ k, Msg.uploadedSummary k ∉ (deploy_ionos cfg root es init).2.msgs) ∧
    ((deploy_ionos cfg root es init).1 = true →
      Msg.uploadedSummary (deploy_ionos cfg root es init).2.uploaded ∈
        (deploy_ionos cfg root es init).2.msgs) := by
  have h0 := initial_inv cfg init hclosed
  rcases hrun : uploadEntries cfg root es ⟨init, [], [], 0, 0⟩ with st | st
  · have hpost := (uploadEntries_inv es _ h0 hEs).2 st hrun
    rw [deploy_ionos_err_case hrun]
    refine ⟨?_, ?_, ?_⟩
    · intro i hi hfail
      refine ⟨rfl, ?_⟩
      by_contra hne
      have hi' : i < st.opCount := hi
      have hne' : i + 1 ≠ st.opCount := hne
      rw [hpost.noFailBut i (by omega)] at hfail
      cases hfail
    · intro _
      constructor
      · exact List.mem_append_right _ (List.mem_singleton.mpr rfl)
      · intro k hk
        rcases List.mem_append.mp hk with hold | hnew
        · exact hpost.noSum k hold
        · exact Msg.noConfusion (List.mem_singleton.mp hnew)
    · intro h
      cases h
  · have hInv := (uploadEntries_inv es _ h0 hEs).1 st hrun
    rw [deploy_ionos_ok_case hrun]
    refine ⟨?_, ?_, ?_⟩
    · intro i hi hfail
      rw [hInv.noFail i (by simpa using hi)] at hfail
      cases hfail
    · intro h
      cases h
    · intro _
      exact List.mem_append_right _ (List.mem_singleton.mpr rfl)

/-- C6 witness: the amended theorem applied at a concrete configuration. -/
theorem c6_first_failure_aborts_witness :
    (∀ i, i < (deploy_ionos ⟨[], fun _ => false⟩ (.dir .nil) [[seg "a"]] []).2.opCount →
      (fun _ => false : Nat → Bool) i = true →
      (deploy_ionos ⟨[], fun _ => false⟩ (.dir .nil) [[seg "a"]] []).1 = false ∧
      i + 1 = (deploy_ionos ⟨[], fun _ => false⟩ (.dir .nil) [[seg "a"]] []).2.opCount) ∧
    ((deploy_ionos ⟨[], fun _ => false⟩ (.dir .nil) [[seg "a"]] []).1 = false →
      Msg.sftpError ∈ (deploy_ionos ⟨[], fun _ => false⟩ (.dir .nil) [[seg "a"]] []).2.msgs ∧
      ∀ k, Msg.uploadedSummary k ∉
        (deploy_ionos ⟨[], fun _ => false⟩ (.dir .nil) [[seg "a"]] []).2.msgs) ∧
    ((deploy_ionos ⟨[], fun _ => false⟩ (.dir .nil) [[seg "a"]] []).1 = true →
      Msg.uploadedSummary (deploy_ionos ⟨[], fun _ => false⟩ (.dir .nil) [[seg "a"]] []).2.uploaded ∈
        (deploy_ionos ⟨[], fun _ => false⟩ (.dir .nil) [[seg "a"]] []).2.msgs) :=
  c6_first_failure_aborts ⟨[], fun _ => false⟩ (.dir .nil) [[seg "a"]] []
    (by intro p hp; cases hp) (by decide)

/-- C6 counterexample: four top-level files with the fourth transport call
failing.  The run aborts after three uploads and returns `False`, the error
is printed, but the accumulated count of already-uploaded files is not in
the output — the claim that the failure is reported together with that count
is false on the code. -/
theorem c6_counterexample :
    (deploy_ionos ⟨[], fun n => decide (n = 3)⟩
      (.dir (.cons (seg "a") .file (.cons (seg "b") .file (.cons (seg "c") .file
        (.cons (seg "d") .file .nil)))))
      [[seg "a"], [seg "b"], [seg "c"], [seg "d"]] []).1 = false ∧
    (deploy_ionos ⟨[], fun n => decide (n = 3)⟩
      (.dir (.cons (seg "a") .file (.cons (seg "b") .file (.cons (seg "c") .file
        (.cons (seg "d") .file .nil)))))
      [[seg "a"], [seg "b"], [seg "c"], [seg "d"]] []).2.uploaded = 3 ∧
    Msg.uploadedSummary 3 ∉
      (deploy_ionos ⟨[], fun n => decide (n = 3)⟩
        (.dir (.cons (seg "a") .file (.cons (seg "b") .file (.cons (seg "c") .file
          (.cons (seg "d") .file .nil)))))
        [[seg "a"], [seg "b"], [seg "c"], [seg "d"]] []).2.msgs ∧
    Msg.sftpError ∈
      (deploy_ionos ⟨[], fun n => decide (n = 3)⟩
        (.dir (.cons (seg "a") .file (.cons (seg "b") .file (.cons (seg "c") .file
          (.cons (seg "d") .file .nil)))))
        [[seg "a"], [seg "b"], [seg "c"], [seg "d"]] []).2.msgs := by
  decide

/-! ## Lemmas: traces of the primitives (shape only) -/

theorem doStat_trace {cfg : SyncCfg} {p : RPath} {st : SyncSt} :
    (∀ res s, doStat cfg p st = .ok (res, s) → s.trace = st.trace ++ [Op.statDir p]) ∧
    (∀ s, doStat cfg p st = .error s → s.trace = st.trace ++ [Op.statDir p]) := by
  unfold doStat
  split_ifs with h1 h2
  · exact ⟨fun res s hs => absurd hs (by simp),
      fun s hs => by simp only [Except.error.injEq] at hs; subst hs; rfl⟩
  · refine ⟨fun res s hs => ?_, fun s hs => absurd hs (by simp)⟩
    simp only [Except.ok.injEq, Prod.mk.injEq] at hs
    obtain ⟨-, hs2⟩ := hs
    subst hs2
    rfl
  · refine ⟨fun res s hs => ?_, fun s hs => absurd hs (by simp)⟩
    simp only [Except.ok.injEq, Prod.mk.injEq] at hs
    obtain ⟨-, hs2⟩ := hs
    subst hs2
    rfl

theorem doMkdir_trace {cfg : SyncCfg} {p : RPath} {st : SyncSt} :
    (∀ s, doMkdir cfg p st = .ok s → s.trace = st.trace ++ [Op.mkdir p]) ∧
    (∀ s, doMkdir cfg p st = .error s → s.trace = st.trace ++ [Op.mkdir p]) := by
  unfold doMkdir
  split_ifs with h1 h2 h3
  · exact ⟨fun s hs => absurd hs (by simp),
      fun s hs => by simp only [Except.error.injEq] at hs; subst hs; rfl⟩
  · exact ⟨fun s hs => absurd hs (by simp),
      fun s hs => by simp only [Except.error.injEq] at hs; subst hs; rfl⟩
  · exact ⟨fun s hs => by simp only [Except.ok.injEq] at hs; subst hs; rfl,
      fun s hs => absurd hs (by simp)⟩
  · exact ⟨fun s hs => absurd hs (by simp),
      fun s hs => by simp only [Except.error.injEq] at hs; subst hs; rfl⟩

theorem doPut_trace {cfg : SyncCfg} {p : RPath} {st : SyncSt} :
    (∀ s, doPut cfg p st = .ok s → s.trace = st.trace ++ [Op.putFile p]) ∧
    (∀ s, doPut cfg p st = .error s → s.trace = st.trace ++ [Op.putFile p]) := by
  unfold doPut
  split_ifs with h1
  · exact ⟨fun s hs => absurd hs (by simp),
      fun s hs => by simp only [Except.error.injEq] at hs; subst hs; rfl⟩
  · exact ⟨fun s hs => by simp only [Except.ok.injEq] at hs; subst hs; rfl,
      fun s hs => absurd hs (by simp)⟩

/-! ## Lemmas: the trace only ever touches clean paths (C3, negative half) -/

theorem cleanPath_of_pref {pats : List (List Char)} {r q : RPath}
    (h : cleanPath pats r) (hq : q <+: r) : cleanPath pats q :=
  fun P hP hP0 => h P (hP.trans hq) hP0

theorem cleanPath_of_anc {pats : List (List Char)} {p : RPath}
    (hanc : ancClean pats p) (hp : should_exclude pats (pathChars p) = false) :
    cleanPath pats p := by
  intro P hP hP0
  rcases eq_or_ne P p with rfl | hne
  · exact hp
  · exact hanc P hP hne hP0

theorem ancClean_child {pats : List (List Char)} {p : RPath} (name : Seg)
    (h : cleanPath pats p) : ancClean pats (p ++ [name]) := by
  intro P hP hne hP0
  have hP' : P <+: p := by
    have := pref_of_strict_pref_dropLast hP hne
    rwa [List.dropLast_concat] at this
  exact h P hP' hP0

theorem cleanTrace_snoc {pats : List (List Char)} {t : List Op} {op : Op}
    (h : cleanTrace pats t) (hop : ∀ r, opTarget op = some r → cleanPath pats r) :
    cleanTrace pats (t ++ [op]) := by
  intro op' hop' r hr
  rcases List.mem_append.mp hop' with hold | hnew
  · exact h op' hold r hr
  · rw [List.mem_singleton.mp hnew] at hr
    exact hop r hr

theorem cleanTrace_snoc_stat {pats : List (List Char)} {t : List Op} {p : RPath}
    (h : cleanTrace pats t) : cleanTrace pats (t ++ [Op.statDir p]) :=
  cleanTrace_snoc h (fun r hr => absurd hr (by simp [opTarget]))

theorem ensureDirs_clean {cfg : SyncCfg} :
    ∀ (rest : List Seg) (b : RPath) (st : SyncSt), cleanTrace cfg.pats st.trace →
      cleanPath cfg.pats (b ++ rest) →
      (∀ s, ensureDirs cfg b rest st = .ok s → cleanTrace cfg.pats s.trace) ∧
      (∀ s, ensureDirs cfg b rest st = .error s → cleanTrace cfg.pats s.trace) := by
  intro rest
  induction rest with
  | nil =>
    intro b st hct _
    constructor
    · intro s hs
      simp only [ensureDirs, Except.ok.injEq] at hs
      subst hs
      exact hct
    · intro s hs
      simp only [ensureDirs] at hs
      exact absurd hs (by simp)
  | cons a rest' ih =>
    intro b st hct hcp
    have hcp' : cleanPath cfg.pats ((b ++ [a]) ++ rest') := by
      have : (b ++ [a]) ++ rest' = b ++ (a :: rest') := by simp
      rwa [this]
    have hcpa : cleanPath cfg.pats (b ++ [a]) :=
      cleanPath_of_pref hcp' (List.prefix_append _ _)
    rcases hst : doStat cfg (b ++ [a]) st with s₀ | ⟨res, s₀⟩
    · have heq : ensureDirs cfg b (a :: rest') st = .error s₀ := by
        simp only [ensureDirs, hst]
      rw [heq]
      have hct₀ : cleanTrace cfg.pats s₀.trace := by
        rw [doStat_trace.2 s₀ hst]
        exact cleanTrace_snoc_stat hct
      exact ⟨fun s hs => absurd hs (by simp),
        fun s hs => by simp only [Except.error.injEq] at hs; subst hs; exact hct₀⟩
    · have hct₀ : cleanTrace cfg.pats s₀.trace := by
        rw [doStat_trace.1 res s₀ hst]
        exact cleanTrace_snoc_stat hct
      cases res with
      | found =>
        have heq : ensureDirs cfg b (a :: rest') st = ensureDirs cfg (b ++ [a]) rest' s₀ := by
          simp only [ensureDirs, hst]
        rw [heq]
        exact ih (b ++ [a]) s₀ hct₀ hcp'
      | notFound =>
        rcases hmk : doMkdir cfg (b ++ [a]) s₀ with s₁ | s₁
        · have heq : ensureDirs cfg b (a :: rest') st = .error s₁ := by
            simp only [ensureDirs, hst, hmk]
          rw [heq]
          have hct₁ : cleanTrace cfg.pats s₁.trace := by
            rw [doMkdir_trace.2 s₁ hmk]
            exact cleanTrace_snoc hct₀ (fun r hr => by
              simp only [opTarget, Option.some.injEq] at hr
              subst hr
              exact hcpa)
          exact ⟨fun s hs => absurd hs (by simp),
            fun s hs => by simp only [Except.error.injEq] at hs; subst hs; exact hct₁⟩
        · have hct₁ : cleanTrace cfg.pats s₁.trace := by
            rw [doMkdir_trace.1 s₁ hmk]
            exact cleanTrace_snoc hct₀ (fun r hr => by
              simp only [opTarget, Option.some.injEq] at hr
              subst hr
              exact hcpa)
          have heq : ensureDirs cfg b (a :: rest') st = ensureDirs cfg (b ++ [a]) rest' s₁ := by
            simp only [ensureDirs, hst, hmk]
          rw [heq]
          exact ih (b ++ [a]) s₁ hct₁ hcp'

theorem uploadFile_clean {cfg : SyncCfg} {p : RPath} {st : SyncSt}
    (hct : cleanTrace cfg.pats st.trace) (hcp : cleanPath cfg.pats p) :
    (∀ s, uploadFile cfg p st = .ok s → cleanTrace cfg.pats s.trace) ∧
    (∀ s, uploadFile cfg p st = .error s → cleanTrace cfg.pats s.trace) := by
  have hput : ∀ (st' : SyncSt), cleanTrace cfg.pats st'.trace →
      (∀ s, doPut cfg p st' = .ok s → cleanTrace cfg.pats s.trace) ∧
      (∀ s, doPut cfg p st' = .error s → cleanTrace cfg.pats s.trace) := by
    intro st' hct'
    have harg : ∀ r, opTarget (Op.putFile p) = some r → cleanPath cfg.pats r := by
      intro r hr
      simp only [opTarget, Option.some.injEq] at hr
      subst hr
      exact hcp
    constructor
    · intro s hs
      rw [doPut_trace.1 s hs]
      exact cleanTrace_snoc hct' harg
    · intro s hs
      rw [doPut_trace.2 s hs]
      exact cleanTrace_snoc hct' harg
  by_cases hd : p.dropLast = []
  · have heq : uploadFile cfg p st = doPut cfg p st := by
      simp only [uploadFile, if_pos hd]
    rw [heq]
    exact hput st hct
  · rcases hst : doStat cfg p.dropLast st with s₀ | ⟨res, s₀⟩
    · have heq : uploadFile cfg p st = .error s₀ := by
        simp only [uploadFile, if_neg hd, hst]
      rw [heq]
      have hct₀ : cleanTrace cfg.pats s₀.trace := by
        rw [doStat_trace.2 s₀ hst]
        exact cleanTrace_snoc_stat hct
      exact ⟨fun s hs => absurd hs (by simp),
        fun s hs => by simp only [Except.error.injEq] at hs; subst hs; exact hct₀⟩
    · have hct₀ : cleanTrace cfg.pats s₀.trace := by
        rw [doStat_trace.1 res s₀ hst]
        exact cleanTrace_snoc_stat hct
      cases res with
      | found =>
        have heq : uploadFile cfg p st = doPut cfg p s₀ := by
          simp only [uploadFile, if_neg hd, hst]
        rw [heq]
        exact hput s₀ hct₀
      | notFound =>
        have hcpd : cleanPath cfg.pats ([] ++ p.dropLast) := by
          rw [List.nil_append]
          exact cleanPath_of_pref hcp (List.dropLast_prefix p)
        rcases hch : ensureDirs cfg [] p.dropLast s₀ with s₁ | s₁
        · have heq : uploadFile cfg p st = .error s₁ := by
            simp only [uploadFile, if_neg hd, hst, hch]
          rw [heq]
          have hct₁ := (ensureDirs_clean p.dropLast [] s₀ hct₀ hcpd).2 s₁ hch
          exact ⟨fun s hs => absurd hs (by simp),
            fun s hs => by simp only [Except.error.injEq] at hs; subst hs; exact hct₁⟩
        · have hct₁ := (ensureDirs_clean p.dropLast [] s₀ hct₀ hcpd).1 s₁ hch
          have heq : uploadFile cfg p st = doPut cfg p s₁ := by
            simp only [uploadFile, if_neg hd, hst, hch]
          rw [heq]
          exact hput s₁ hct₁

mutual

theorem upload_path_clean (cfg : SyncCfg) (p : RPath) (n : FSNode) (st : SyncSt)
    (hct : cleanTrace cfg.pats st.trace) (hanc : ancClean cfg.pats p) :
    (∀ s, upload_path cfg p n st = .ok s → cleanTrace cfg.pats s.trace) ∧
    (∀ s, upload_path cfg p n st = .error s → cleanTrace cfg.pats s.trace) := by
  by_cases hex : should_exclude cfg.pats (pathChars p) = true
  · have heq : upload_path cfg p n st = .ok st := by
      unfold upload_path
      rw [if_pos hex]
    rw [heq]
    exact ⟨fun s hs => by simp only [Except.ok.injEq] at hs; subst hs; exact hct,
      fun s hs => absurd hs (by simp)⟩
  · have hcp : cleanPath cfg.pats p :=
      cleanPath_of_anc hanc (by simpa using hex)
    cases n with
    | file =>
      have heq : upload_path cfg p .file st = uploadFile cfg p st := by
        unfold upload_path
        rw [if_neg hex]
      rw [heq]
      exact uploadFile_clean hct hcp
    | dir cs =>
      rcases hst : doStat cfg p st with s₀ | ⟨res, s₀⟩
      · have heq : upload_path cfg p (.dir cs) st = .error s₀ := by
          unfold upload_path
          rw [if_neg hex, hst]
        rw [heq]
        have hct₀ : cleanTrace cfg.pats s₀.trace := by
          rw [doStat_trace.2 s₀ hst]
          exact cleanTrace_snoc_stat hct
        exact ⟨fun s hs => absurd hs (by simp),
          fun s hs => by simp only [Except.error.injEq] at hs; subst hs; exact hct₀⟩
      · have hct₀ : cleanTrace cfg.pats s₀.trace := by
          rw [doStat_trace.1 res s₀ hst]
          exact cleanTrace_snoc_stat hct
        cases res with
        | found =>
          have heq : upload_path cfg p (.dir cs) st = uploadChildren cfg p cs s₀ := by
            unfold upload_path
            rw [if_neg hex, hst]
          rw [heq]
          exact uploadChildren_clean cfg p cs s₀ hct₀ hcp
        | notFound =>
          have hmkT : ∀ r, opTarget (Op.mkdir p) = some r → cleanPath cfg.pats r := by
            intro r hr
            simp only [opTarget, Option.some.injEq] at hr
            subst hr
            exact hcp
          rcases hmk : doMkdir cfg p s₀ with s₁ | s₁
          · have heq : upload_path cfg p (.dir cs) st = .error s₁ := by
              unfold upload_path
              rw [if_neg hex, hst]
              dsimp only
              rw [hmk]
            rw [heq]
            have hct₁ : cleanTrace cfg.pats s₁.trace := by
              rw [doMkdir_trace.2 s₁ hmk]
              exact cleanTrace_snoc hct₀ hmkT
            exact ⟨fun s hs => absurd hs (by simp),
              fun s hs => by simp only [Except.error.injEq] at hs; subst hs; exact hct₁⟩
          · have hct₁ : cleanTrace cfg.pats s₁.trace := by
              rw [doMkdir_trace.1 s₁ hmk]
              exact cleanTrace_snoc hct₀ hmkT
            have heq : upload_path cfg p (.dir cs) st = uploadChildren cfg p cs s₁ := by
              unfold upload_path
              rw [if_neg hex, hst]
              dsimp only
              rw [hmk]
            rw [heq]
            exact uploadChildren_clean cfg p cs s₁ hct₁ hcp

theorem uploadChildren_clean (cfg : SyncCfg) (p : RPath) (cs : FSList) (st : SyncSt)
    (hct : cleanTrace cfg.pats st.trace) (hcp : cleanPath cfg.pats p) :
    (∀ s, uploadChildren cfg p cs st = .ok s → cleanTrace cfg.pats s.trace) ∧
    (∀ s, uploadChildren cfg p cs st = .error s → cleanTrace cfg.pats s.trace) := by
  cases cs with
  | nil =>
    constructor
    · intro s hs
      unfold uploadChildren at hs
      simp only [Except.ok.injEq] at hs
      subst hs
      exact hct
    · intro s hs
      unfold uploadChildren at hs
      exact absurd hs (by simp)
  | cons name n rest =>
    have hanc : ancClean cfg.pats (p ++ [name]) := ancClean_child name hcp
    rcases hup : upload_path cfg (p ++ [name]) n st with s₀ | s₀
    · have heq : uploadChildren cfg p (.cons name n rest) st = .error s₀ := by
        unfold uploadChildren
        rw [hup]
      rw [heq]
      have hct₀ := (upload_path_clean cfg (p ++ [name]) n st hct hanc).2 s₀ hup
      exact ⟨fun s hs => absurd hs (by simp),
        fun s hs => by simp only [Except.error.injEq] at hs; subst hs; exact hct₀⟩
    · have hct₀ := (upload_path_clean cfg (p ++ [name]) n st hct hanc).1 s₀ hup
      have heq : uploadChildren cfg p (.cons name n rest) st =
          uploadChildren cfg p rest s₀ := by
        conv_lhs => unfold uploadChildren
        rw [hup]
      rw [heq]
      exact uploadChildren_clean cfg p rest s₀ hct₀ hcp

end

theorem uploadEntries_clean {cfg : SyncCfg} {root : FSNode} :
    ∀ (es : List RPath) (st : SyncSt), cleanTrace cfg.pats st.trace →
      (∀ e ∈ es, ancClean cfg.pats e) →
      (∀ s, uploadEntries cfg root es st = .ok s → cleanTrace cfg.pats s.trace) ∧
      (∀ s, uploadEntries cfg root es st = .error s → cleanTrace cfg.pats s.trace) := by
  intro es
  induction es with
  | nil =>
    intro st hct _
    constructor
    · intro s hs
      simp only [uploadEntries, Except.ok.injEq] at hs
      subst hs
      exact hct
    · intro s hs
      simp only [uploadEntries] at hs
      exact absurd hs (by simp)
  | cons e rest ih =>
    intro st hct hanc
    have he : ancClean cfg.pats e := hanc e (List.mem_cons_self _ _)
    have hanc' : ∀ x ∈ rest, ancClean cfg.pats x := fun x hx => hanc x (List.mem_cons_of_mem _ hx)
    rcases hlk : lookupNode root e with _ | n
    · have heq : uploadEntries cfg root (e :: rest) st = uploadEntries cfg root rest st := by
        simp only [uploadEntries, hlk]
      rw [heq]
      exact ih st hct hanc'
    · rcases hup : upload_path cfg e n st with s₀ | s₀
      · have heq : uploadEntries cfg root (e :: rest) st = .error s₀ := by
          simp only [uploadEntries, hlk, hup]
        rw [heq]
        have hct₀ := (upload_path_clean cfg e n st hct he).2 s₀ hup
        exact ⟨fun s hs => absurd hs (by simp),
          fun s hs => by simp only [Except.error.injEq] at hs; subst hs; exact hct₀⟩
      · have hct₀ := (upload_path_clean cfg e n st hct he).1 s₀ hup
        have heq : uploadEntries cfg root (e :: rest) st = uploadEntries cfg root rest s₀ := by
          simp only [uploadEntries, hlk, hup]
        rw [heq]
        exact ih s₀ hct₀ hanc'

/-! ## Lemmas: a successful run uploads every visited, non-excluded file (C3, positive half) -/

theorem ensureDirs_grow {cfg : SyncCfg} :
    ∀ (rest : List Seg) (b : RPath) (st : SyncSt) (s : SyncSt),
      ensureDirs cfg b rest st = .ok s → ∀ x ∈ st.trace, x ∈ s.trace := by
  intro rest
  induction rest with
  | nil =>
    intro b st s hs
    simp only [ensureDirs, Except.ok.injEq] at hs
    subst hs
    exact fun x hx => hx
  | cons a rest' ih =>
    intro b st s hs
    rcases hst : doStat cfg (b ++ [a]) st with s₀ | ⟨res, s₀⟩
    · rw [show ensureDirs cfg b (a :: rest') st = .error s₀ by simp only [ensureDirs, hst]] at hs
      exact absurd hs (by simp)
    · have hgrow₀ : ∀ x ∈ st.trace, x ∈ s₀.trace := by
        rw [doStat_trace.1 res s₀ hst]
        exact fun x hx => List.mem_append_left _ hx
      cases res with
      | found =>
        rw [show ensureDirs cfg b (a :: rest') st = ensureDirs cfg (b ++ [a]) rest' s₀ by
          simp only [ensureDirs, hst]] at hs
        exact fun x hx => ih (b ++ [a]) s₀ s hs x (hgrow₀ x hx)
      | notFound =>
        rcases hmk : doMkdir cfg (b ++ [a]) s₀ with s₁ | s₁
        · rw [show ensureDirs cfg b (a :: rest') st = .error s₁ by
            simp only [ensureDirs, hst, hmk]] at hs
          exact absurd hs (by simp)
        · have hgrow₁ : ∀ x ∈ s₀.trace, x ∈ s₁.trace := by
            rw [doMkdir_trace.1 s₁ hmk]
            exact fun x hx => List.mem_append_left _ hx
          rw [show ensureDirs cfg b (a :: rest') st = ensureDirs cfg (b ++ [a]) rest' s₁ by
            simp only [ensureDirs, hst, hmk]] at hs
          exact fun x hx => ih (b ++ [a]) s₁ s hs x (hgrow₁ x (hgrow₀ x hx))

theorem uploadFile_puts {cfg : SyncCfg} {p : RPath} {st : SyncSt} :
    ∀ s, uploadFile cfg p st = .ok s →
      (∀ x ∈ st.trace, x ∈ s.trace) ∧ Op.putFile p ∈ s.trace := by
  have hput : ∀ (st' : SyncSt) (s : SyncSt), doPut cfg p st' = .ok s →
      (∀ x ∈ st'.trace, x ∈ s.trace) ∧ Op.putFile p ∈ s.trace := by
    intro st' s hs
    rw [doPut_trace.1 s hs]
    exact ⟨fun x hx => List.mem_append_left _ hx,
      List.mem_append_right _ (List.mem_singleton.mpr rfl)⟩
  intro s hs
  by_cases hd : p.dropLast = []
  · rw [show uploadFile cfg p st = doPut cfg p st by simp only [uploadFile, if_pos hd]] at hs
    exact hput st s hs
  · rcases hst : doStat cfg p.dropLast st with s₀ | ⟨res, s₀⟩
    · rw [show uploadFile cfg p st = .error s₀ by simp only [uploadFile, if_neg hd, hst]] at hs
      exact absurd hs (by simp)
    · have hgrow₀ : ∀ x ∈ st.trace, x ∈ s₀.trace := by
        rw [doStat_trace.1 res s₀ hst]
        exact fun x hx => List.mem_append_left _ hx
      cases res with
      | found =>
        rw [show uploadFile cfg p st = doPut cfg p s₀ by
          simp only [uploadFile, if_neg hd, hst]] at hs
        obtain ⟨hg, hm⟩ := hput s₀ s hs
        exact ⟨fun x hx => hg x (hgrow₀ x hx), hm⟩
      | notFound =>
        rcases hch : ensureDirs cfg [] p.dropLast s₀ with s₁ | s₁
        · rw [show uploadFile cfg p st = .error s₁ by
            simp only [uploadFile, if_neg hd, hst, hch]] at hs
          exact absurd hs (by simp)
        · have hgrow₁ := ensureDirs_grow p.dropLast [] s₀ s₁ hch
          rw [show uploadFile cfg p st = doPut cfg p s₁ by
            simp only [uploadFile, if_neg hd, hst, hch]] at hs
          obtain ⟨hg, hm⟩ := hput s₁ s hs
          exact ⟨fun x hx => hg x (hgrow₁ x (hgrow₀ x hx)), hm⟩

mutual

theorem upload_path_puts (cfg : SyncCfg) (p : RPath) (n : FSNode) (st : SyncSt) :
    ∀ s, upload_path cfg p n st = .ok s →
      (∀ x ∈ st.trace, x ∈ s.trace) ∧
      (∀ q ∈ syncPuts cfg.pats p n, Op.putFile q ∈ s.trace) ∧
      (∀ q ∈ syncProbes cfg.pats p n, Op.statDir q ∈ s.trace) := by
  intro s hs
  by_cases hex : should_exclude cfg.pats (pathChars p) = true
  · rw [show upload_path cfg p n st = .ok st by unfold upload_path; rw [if_pos hex]] at hs
    simp only [Except.ok.injEq] at hs
    subst hs
    refine ⟨fun x hx => hx, ?_, ?_⟩
    · intro q hq
      exfalso
      cases n with
      | file =>
        unfold syncPuts at hq
        rw [if_pos hex] at hq
        cases hq
      | dir cs =>
        unfold syncPuts at hq
        rw [if_pos hex] at hq
        cases hq
    · intro q hq
      exfalso
      cases n with
      | file =>
        unfold syncProbes at hq
        cases hq
      | dir cs =>
        unfold syncProbes at hq
        rw [if_pos hex] at hq
        cases hq
  · cases n with
    | file =>
      rw [show upload_path cfg p .file st = uploadFile cfg p st by
        unfold upload_path; rw [if_neg hex]] at hs
      obtain ⟨hg, hm⟩ := uploadFile_puts s hs
      refine ⟨hg, ?_, ?_⟩
      · intro q hq
        unfold syncPuts at hq
        rw [if_neg hex] at hq
        rw [List.mem_singleton.mp hq]
        exact hm
      · intro q hq
        unfold syncProbes at hq
        cases hq
    | dir cs =>
      rcases hst : doStat cfg p st with s₀ | ⟨res, s₀⟩
      · rw [show upload_path cfg p (.dir cs) st = .error s₀ by
          unfold upload_path; rw [if_neg hex, hst]] at hs
        exact absurd hs (by simp)
      · have hgrow₀ : ∀ x ∈ st.trace, x ∈ s₀.trace := by
          rw [doStat_trace.1 res s₀ hst]
          exact fun x hx => List.mem_append_left _ hx
        have hstat₀ : Op.statDir p ∈ s₀.trace := by
          rw [doStat_trace.1 res s₀ hst]
          exact List.mem_append_right _ (List.mem_singleton.mpr rfl)
        have hfin : ∀ s₂, uploadChildren cfg p cs s₂ = .ok s →
            (∀ x ∈ s₀.trace, x ∈ s₂.trace) →
            (∀ x ∈ st.trace, x ∈ s.trace) ∧
            (∀ q ∈ syncPuts cfg.pats p (.dir cs), Op.putFile q ∈ s.trace) ∧
            (∀ q ∈ syncProbes cfg.pats p (.dir cs), Op.statDir q ∈ s.trace) := by
          intro s₂ hch hg₂
          obtain ⟨hg, hputs, hprobes⟩ := uploadChildren_puts cfg p cs s₂ s hch
          refine ⟨fun x hx => hg x (hg₂ x (hgrow₀ x hx)), ?_, ?_⟩
          · intro q hq
            unfold syncPuts at hq
            rw [if_neg hex] at hq
            exact hputs q hq
          · intro q hq
            unfold syncProbes at hq
            rw [if_neg hex] at hq
            rcases List.mem_cons.mp hq with rfl | hq'
            · exact hg _ (hg₂ _ hstat₀)
            · exact hprobes q hq'
        cases res with
        | found =>
          rw [show upload_path cfg p (.dir cs) st = uploadChildren cfg p cs s₀ by
            unfold upload_path; rw [if_neg hex, hst]] at hs
          exact hfin s₀ hs (fun x hx => hx)
        | notFound =>
          rcases hmk : doMkdir cfg p s₀ with s₁ | s₁
          · rw [show upload_path cfg p (.dir cs) st = .error s₁ by
              unfold upload_path; rw [if_neg hex, hst]; dsimp only; rw [hmk]] at hs
            exact absurd hs (by simp)
          · have hgrow₁ : ∀ x ∈ s₀.trace, x ∈ s₁.trace := by
              rw [doMkdir_trace.1 s₁ hmk]
              exact fun x hx => List.mem_append_left _ hx
            rw [show upload_path cfg p (.dir cs) st = uploadChildren cfg p cs s₁ by
              unfold upload_path; rw [if_neg hex, hst]; dsimp only; rw [hmk]] at hs
            exact hfin s₁ hs hgrow₁

theorem uploadChildren_puts (cfg : SyncCfg) (p : RPath) (cs : FSList) (st : SyncSt) :
    ∀ s, uploadChildren cfg p cs st = .ok s →
      (∀ x ∈ st.trace, x ∈ s.trace) ∧
      (∀ q ∈ syncPutsList cfg.pats p cs, Op.putFile q ∈ s.trace) ∧
      (∀ q ∈ syncProbesList cfg.pats p cs, Op.statDir q ∈ s.trace) := by
  intro s hs
  cases cs with
  | nil =>
    unfold uploadChildren at hs
    simp only [Except.ok.injEq] at hs
    subst hs
    refine ⟨fun x hx => hx, ?_, ?_⟩
    · intro q hq
      unfold syncPutsList at hq
      cases hq
    · intro q hq
      unfold syncProbesList at hq
      cases hq
  | cons name n rest =>
    rcases hup : upload_path cfg (p ++ [name]) n st with s₀ | s₀
    · rw [show uploadChildren cfg p (.cons name n rest) st = .error s₀ by
        unfold uploadChildren; rw [hup]] at hs
      exact absurd hs (by simp)
    · obtain ⟨hg₀, hputs₀, hprobes₀⟩ := upload_path_puts cfg (p ++ [name]) n st s₀ hup
      rw [show uploadChildren cfg p (.cons name n rest) st = uploadChildren cfg p rest s₀ by
        conv_lhs => unfold uploadChildren
        rw [hup]] at hs
      obtain ⟨hg, hputs, hprobes⟩ := uploadChildren_puts cfg p rest s₀ s hs
      refine ⟨fun x hx => hg x (hg₀ x hx), ?_, ?_⟩
      · intro q hq
        unfold syncPutsList at hq
        rcases List.mem_append.mp hq with h1 | h2
        · exact hg _ (hputs₀ q h1)
        · exact hputs q h2
      · intro q hq
        unfold syncProbesList at hq
        rcases List.mem_append.mp hq with h1 | h2
        · exact hg _ (hprobes₀ q h1)
        · exact hprobes q h2

end

theorem uploadEntries_puts {cfg : SyncCfg} {root : FSNode} :
    ∀ (es : List RPath) (st : SyncSt) (s : SyncSt),
      uploadEntries cfg root es st = .ok s →
      (∀ x ∈ st.trace, x ∈ s.trace) ∧
      (∀ q ∈ syncPutsAll cfg.pats root es, Op.putFile q ∈ s.trace) ∧
      (∀ q ∈ syncProbesAll cfg.pats root es, Op.statDir q ∈ s.trace) := by
  intro es
  induction es with
  | nil =>
    intro st s hs
    simp only [uploadEntries, Except.ok.injEq] at hs
    subst hs
    refine ⟨fun x hx => hx, ?_, ?_⟩
    · intro q hq
      simp only [syncPutsAll] at hq
      cases hq
    · intro q hq
      simp only [syncProbesAll] at hq
      cases hq
  | cons e rest ih =>
    intro st s hs
    rcases hlk : lookupNode root e with _ | n
    · rw [show uploadEntries cfg root (e :: rest) st = uploadEntries cfg root rest st by
        simp only [uploadEntries, hlk]] at hs
      obtain ⟨hg, hputs, hprobes⟩ := ih st s hs
      refine ⟨hg, ?_, ?_⟩
      · intro q hq
        simp only [syncPutsAll, hlk, List.nil_append] at hq
        exact hputs q hq
      · intro q hq
        simp only [syncProbesAll, hlk, List.nil_append] at hq
        exact hprobes q hq
    · rcases hup : upload_path cfg e n st with s₀ | s₀
      · rw [show uploadEntries cfg root (e :: rest) st = .error s₀ by
          simp only [uploadEntries, hlk, hup]] at hs
        exact absurd hs (by simp)
      · obtain ⟨hg₀, hputs₀, hprobes₀⟩ := upload_path_puts cfg e n st s₀ hup
        rw [show uploadEntries cfg root (e :: rest) st = uploadEntries cfg root rest s₀ by
          simp only [uploadEntries, hlk, hup]] at hs
        obtain ⟨hg, hputs, hprobes⟩ := ih s₀ s hs
        refine ⟨fun x hx => hg x (hg₀ x hx), ?_, ?_⟩
        · intro q hq
          simp only [syncPutsAll, hlk] at hq
          rcases List.mem_append.mp hq with h1 | h2
          · exact hg _ (hputs₀ q h1)
          · exact hputs q h2
        · intro q hq
          simp only [syncProbesAll, hlk] at hq
          rcases List.mem_append.mp hq with h1 | h2
          · exact hg _ (hprobes₀ q h1)
          · exact hprobes q h2

theorem childMem_sub (pats : List (List Char)) (p : RPath) (name : Seg) (n : FSNode) :
    ∀ (cs : FSList), childMem name n cs →
      (∀ q ∈ syncPuts pats (p ++ [name]) n, q ∈ syncPutsList pats p cs) ∧
      (∀ q ∈ syncProbes pats (p ++ [name]) n, q ∈ syncProbesList pats p cs)
  | .nil, h => False.elim h
  | .cons name' n' rest, h => by
    have h' : (name' = name ∧ n' = n) ∨ childMem name n rest := h
    rcases h' with ⟨rfl, rfl⟩ | h'
    · constructor
      · intro q hq
        unfold syncPutsList
        exact List.mem_append_left _ hq
      · intro q hq
        unfold syncProbesList
        exact List.mem_append_left _ hq
    · obtain ⟨h1, h2⟩ := childMem_sub pats p name n rest h'
      constructor
      · intro q hq
        unfold syncPutsList
        exact List.mem_append_right _ (h1 q hq)
      · intro q hq
        unfold syncProbesList
        exact List.mem_append_right _ (h2 q hq)

theorem entry_sub {pats : List (List Char)} {root : FSNode} {e : RPath} {n : FSNode}
    (hlk : lookupNode root e = some n) :
    ∀ es : List RPath, e ∈ es →
      (∀ q ∈ syncPuts pats e n, q ∈ syncPutsAll pats root es) ∧
      (∀ q ∈ syncProbes pats e n, q ∈ syncProbesAll pats root es) := by
  intro es
  induction es with
  | nil =>
    intro he
    cases he
  | cons e' rest ih =>
    intro he
    rcases List.mem_cons.mp he with rfl | h'
    · constructor
      · intro q hq
        simp only [syncPutsAll, hlk]
        exact List.mem_append_left _ hq
      · intro q hq
        simp only [syncProbesAll, hlk]
        exact List.mem_append_left _ hq
    · obtain ⟨h1, h2⟩ := ih h'
      constructor
      · intro q hq
        simp only [syncPutsAll]
        exact List.mem_append_right _ (h1 q hq)
      · intro q hq
        simp only [syncProbesAll]
        exact List.mem_append_right _ (h2 q hq)

theorem visited_sub {pats : List (List Char)} {root : FSNode} {es : List RPath}
    {p : RPath} {n : FSNode} (h : VisitedNode pats root es p n) :
    (∀ q ∈ syncPuts pats p n, q ∈ syncPutsAll pats root es) ∧
    (∀ q ∈ syncProbes pats p n, q ∈ syncProbesAll pats root es) := by
  induction h with
  | entry e n' he hlk => exact entry_sub hlk es he
  | child p' cs name n' hvis hex hmem ih =>
    obtain ⟨hsp, hspr⟩ := childMem_sub pats p' name n' cs hmem
    constructor
    · intro q hq
      apply ih.1
      unfold syncPuts
      rw [if_neg (by simp [hex])]
      exact hsp q hq
    · intro q hq
      apply ih.2
      unfold syncProbes
      rw [if_neg (by simp [hex])]
      exact List.mem_cons_of_mem _ (hspr q hq)

theorem visited_ne_nil {pats : List (List Char)} {root : FSNode} {es : List RPath}
    (hEs : ∀ e ∈ es, e ≠ []) {p : RPath} {n : FSNode}
    (h : VisitedNode pats root es p n) : p ≠ [] := by
  induction h with
  | entry e n' he _ => exact hEs e he
  | child p' cs name n' _ _ _ _ => simp

theorem ancClean_of_takes {pats : List (List Char)} {e : RPath}
    (h : ∀ i, i < e.length → e.take i ≠ [] →
      should_exclude pats (pathChars (e.take i)) = false) :
    ancClean pats e := by
  intro P hP hne hP0
  have hPt : P = e.take P.length := List.prefix_iff_eq_take.mp hP
  have hlt : P.length < e.length := by
    rcases lt_or_eq_of_le hP.length_le with hl | hl
    · exact hl
    · exact absurd (hP.eq_of_length hl) hne
  have hres := h P.length hlt (by rw [← hPt]; exact hP0)
  rwa [← hPt] at hres

/-- C3: the exclusion filter, for the synchronizer's visited paths.  With
include entries whose proper ancestors pass the filter (true of the script's
`IONOS_DEPLOY_FILES`) and trailing-slash patterns with slash-free stems
(true of `IONOS_EXCLUDE`): a path matching an exclusion predicate in the
specification's sense — stem substring of a segment, `*`-suffix, or plain
substring — is never uploaded or created, nor is anything at or beneath it;
and in a run with no transport failure, every visited path matching no
pattern is included: a visited file is uploaded and a visited directory is
probed and synchronized. -/
theorem c3_exclusion_filter (cfg : SyncCfg) (root : FSNode) (es : List RPath)
    (init : List RPath) (hEs : ∀ e ∈ es, e ≠ [])
    (hAnc : ∀ e ∈ es, ancClean cfg.pats e) (hStem : stemSlashFree cfg.pats) :
    (∀ P, P ≠ [] → specExcluded cfg.pats P →
      ∀ op ∈ (deploy_ionos cfg root es init).2.trace, ∀ r, opTarget op = some r →
        ¬ P <+: r) ∧
    ((deploy_ionos cfg root es init).1 = true →
      ∀ p n, VisitedNode cfg.pats root es p n → ¬ specExcluded cfg.pats p →
        (n = FSNode.file → Op.putFile p ∈ (deploy_ionos cfg root es init).2.trace) ∧
        (∀ cs, n = FSNode.dir cs →
          Op.statDir p ∈ (deploy_ionos cfg root es init).2.trace)) := by
  have hct0 : cleanTrace cfg.pats ([] : List Op) :=
    fun op hop => absurd hop (List.not_mem_nil op)
  rcases hrun : uploadEntries cfg root es ⟨init, [], [], 0, 0⟩ with st | st
  · rw [deploy_ionos_err_case hrun]
    have hclean := (uploadEntries_clean es ⟨init, [], [], 0, 0⟩ hct0 hAnc).2 st hrun
    constructor
    · intro P hP0 hPex op hop r hr hpre
      have hres := hclean op hop r hr P hpre hP0
      rw [specExcluded_imp_should_exclude hPex] at hres
      cases hres
    · intro hok
      exact Bool.noConfusion hok
  · rw [deploy_ionos_ok_case hrun]
    have hclean := (uploadEntries_clean es ⟨init, [], [], 0, 0⟩ hct0 hAnc).1 st hrun
    obtain ⟨-, hputs, hprobes⟩ := uploadEntries_puts es ⟨init, [], [], 0, 0⟩ st hrun
    constructor
    · intro P hP0 hPex op hop r hr hpre
      have hres := hclean op hop r hr P hpre hP0
      rw [specExcluded_imp_should_exclude hPex] at hres
      cases hres
    · intro _ p n hvis hnspec
      have hp0 : p ≠ [] := visited_ne_nil hEs hvis
      have hnex : should_exclude cfg.pats (pathChars p) = false := by
        by_contra hcon
        rw [Bool.not_eq_false] at hcon
        exact hnspec (should_exclude_imp_specExcluded hStem hp0 hcon)
      obtain ⟨hsp, hspr⟩ := visited_sub hvis
      constructor
      · intro hn
        subst hn
        apply hputs
        apply hsp
        unfold syncPuts
        rw [if_neg (by simp [hnex])]
        exact List.mem_singleton.mpr rfl
      · intro cs hn
        subst hn
        apply hprobes
        apply hspr
        unfold syncProbes
        rw [if_neg (by simp [hnex])]
        exact List.mem_cons_self _ _

/-- C3 witness: the theorem applied at the script's constants, verifying the
side conditions on `IONOS_DEPLOY_FILES` and `IONOS_EXCLUDE` by computation. -/
theorem c3_exclusion_filter_witness :
    (∀ P, P ≠ [] → specExcluded IONOS_EXCLUDE P →
      ∀ op ∈ (deploy_ionos ⟨IONOS_EXCLUDE, fun _ => false⟩ (.dir .nil)
          IONOS_DEPLOY_FILES []).2.trace, ∀ r, opTarget op = some r → ¬ P <+: r) ∧
    ((deploy_ionos ⟨IONOS_EXCLUDE, fun _ => false⟩ (.dir .nil)
        IONOS_DEPLOY_FILES []).1 = true →
      ∀ p n, VisitedNode IONOS_EXCLUDE (.dir .nil) IONOS_DEPLOY_FILES p n →
        ¬ specExcluded IONOS_EXCLUDE p →
        (n = FSNode.file → Op.putFile p ∈ (deploy_ionos ⟨IONOS_EXCLUDE, fun _ => false⟩
          (.dir .nil) IONOS_DEPLOY_FILES []).2.trace) ∧
        (∀ cs, n = FSNode.dir cs → Op.statDir p ∈ (deploy_ionos ⟨IONOS_EXCLUDE, fun _ => false⟩
          (.dir .nil) IONOS_DEPLOY_FILES []).2.trace)) := by
  have hAnc : ∀ e ∈ IONOS_DEPLOY_FILES, ∀ i, i < e.length → e.take i ≠ [] →
      should_exclude IONOS_EXCLUDE (pathChars (e.take i)) = false := by decide
  exact c3_exclusion_filter ⟨IONOS_EXCLUDE, fun _ => false⟩ (.dir .nil) IONOS_DEPLOY_FILES []
    (by decide) (fun e he => ancClean_of_takes (hAnc e he))
    (show stemSlashFree IONOS_EXCLUDE by unfold stemSlashFree; decide)

/-! ## Lemmas: gate aggregation (C5) -/

theorem suiteTotals_failed (o : SuiteOutcome) :
    (suiteTotals o).2 = suiteFailCount (suiteDetail o) := by
  cases o with
  | timedOut => rfl
  | completed pf rc =>
    cases pf with
    | none => by_cases h : rc = 0 <;> simp [suiteTotals, suiteDetail, suiteFailCount, h]
    | some pr =>
      obtain ⟨p, f⟩ := pr
      by_cases h : f = 0 <;> simp [suiteTotals, suiteDetail, suiteFailCount, h]

theorem suiteFailCount_zero_iff (o : SuiteOutcome) :
    suiteFailCount (suiteDetail o) = 0 ↔ (suiteDetail o).status = SuiteStatus.pass := by
  cases o with
  | timedOut => simp [suiteDetail, suiteFailCount]
  | completed pf rc =>
    cases pf with
    | none => by_cases h : rc = 0 <;> simp [suiteDetail, suiteFailCount, h]
    | some pr =>
      obtain ⟨p, f⟩ := pr
      by_cases h : f = 0 <;> simp [suiteDetail, suiteFailCount, h]

theorem run_test_suites_failed_sum (outs : List SuiteOutcome) :
    (run_test_suites outs).2.1 =
      ((run_test_suites outs).2.2.map suiteFailCount).sum := by
  induction outs with
  | nil => rfl
  | cons o rest ih =>
    simp only [run_test_suites, List.map_cons, List.sum_cons]
    rw [suiteTotals_failed, ih]

theorem run_test_suites_details (outs : List SuiteOutcome) :
    (run_test_suites outs).2.2 = outs.map suiteDetail := by
  induction outs with
  | nil => rfl
  | cons o rest ih =>
    simp only [run_test_suites, List.map_cons]
    rw [ih]

theorem gitAndHash_events (a : Args) (w : World) :
    ∀ e ∈ (gitAndHash a w).1, e = Ev.gitAdd ∨ e = Ev.gitCommit := by
  unfold gitAndHash gitPhase
  split_ifs <;> intro e he <;> simp at he <;> tauto

/-- C5: gate aggregation.  The aggregate failed count of `run_test_suites` is
the sum over the recorded suite details of each suite's failure count, a
timed-out suite carrying the dedicated TIMEOUT status and contributing
exactly one failure; the aggregate is zero exactly when every suite's status
is PASS; the example suites (5/0, 3/0, 1/0) pass with 9 of 9; and in the
`all` pipeline a zero aggregate lets production proceed without any
override. -/
theorem c5_gate_aggregation :
    (∀ outs : List SuiteOutcome,
      (run_test_suites outs).2.1 = ((run_test_suites outs).2.2.map suiteFailCount).sum ∧
      ((run_test_suites outs).2.1 = 0 ↔
        ∀ d ∈ (run_test_suites outs).2.2, d.status = SuiteStatus.pass)) ∧
    run_test_suites [SuiteOutcome.completed (some (5, 0)) 0,
        SuiteOutcome.completed (some (3, 0)) 0, SuiteOutcome.completed (some (1, 0)) 0] =
      (9, 0, [⟨5, 0, .pass⟩, ⟨3, 0, .pass⟩, ⟨1, 0, .pass⟩]) ∧
    (∀ (a : Args) (w : World), a.target = DTarget.all → deploy_test_server w.ts = true →
      (run_test_suites w.suiteOuts).2.1 = 0 →
      Ev.deployLightsailServer ∈ (mainModel a w).events ∧
      Ev.deployIonosEv ∈ (mainModel a w).events) := by
  refine ⟨?_, by decide, ?_⟩
  · intro outs
    refine ⟨run_test_suites_failed_sum outs, ?_⟩
    rw [run_test_suites_failed_sum, run_test_suites_details]
    constructor
    · intro hz d hd
      obtain ⟨o, ho, rfl⟩ := List.mem_map.mp hd
      refine (suiteFailCount_zero_iff o).mp ?_
      exact List.sum_eq_zero_iff.mp hz _
        (List.mem_map_of_mem _ (List.mem_map_of_mem _ ho))
    · intro hall
      refine List.sum_eq_zero_iff.mpr ?_
      intro x hx
      obtain ⟨d, hd, rfl⟩ := List.mem_map.mp hx
      obtain ⟨o, ho, rfl⟩ := List.mem_map.mp hd
      exact (suiteFailCount_zero_iff o).mpr (hall _ (List.mem_map_of_mem _ ho))
  · intro a w hT hts htf
    obtain ⟨tgt, nc, ys, fc⟩ := a
    dsimp only at hT
    subst hT
    simp [mainModel, hts, htf, finishMain, log_deploy]

/-- C1: in the `everything` pipeline with a failing pre-flight gate (sandbox
deploy failure or any suite failure): without `--force`, neither production
deploy is ever invoked and the process exits 1; with `--force`, both
production deploys proceed and the audit record's outcome is the conjunction
of the actual production results, not the gate result. -/
theorem c1_gate_blocks_production (a : Args) (w : World) (hT : a.target = DTarget.all)
    (hGate : deploy_test_server w.ts = false ∨ (run_test_suites w.suiteOuts).2.1 ≠ 0) :
    (a.force = false → (mainModel a w).exitCode = 1 ∧
      Ev.deployLightsailServer ∉ (mainModel a w).events ∧
      Ev.deployIonosEv ∉ (mainModel a w).events) ∧
    (a.force = true → Ev.deployLightsailServer ∈ (mainModel a w).events ∧
      Ev.deployIonosEv ∈ (mainModel a w).events ∧
      Ev.logAppend DTarget.all (gitAndHash a w).2.2.2
        ((deploy_lightsail_server w.ls).1 && w.ionosOk) ∈ (mainModel a w).events) := by
  obtain ⟨tgt, nc, ys, fc⟩ := a
  dsimp only at hT
  subst hT
  constructor
  · intro hf
    dsimp only at hf
    subst hf
    have hg := gitAndHash_events ⟨DTarget.all, nc, ys, false⟩ w
    rcases hGate with hts | htf
    · have hmain : mainModel ⟨DTarget.all, nc, ys, false⟩ w =
          { events := (gitAndHash ⟨DTarget.all, nc, ys, false⟩ w).1 ++ [Ev.deployTest]
            msgs := (gitAndHash ⟨DTarget.all, nc, ys, false⟩ w).2.1
            exitCode := 1
            head := (gitAndHash ⟨DTarget.all, nc, ys, false⟩ w).2.2.1 } := by
        simp [mainModel, hts]
      rw [hmain]
      refine ⟨rfl, ?_, ?_⟩
      · intro hmem
        rcases List.mem_append.mp hmem with h | h
        · rcases hg _ h with h' | h' <;> exact Ev.noConfusion h'
        · simp at h
      · intro hmem
        rcases List.mem_append.mp hmem with h | h
        · rcases hg _ h with h' | h' <;> exact Ev.noConfusion h'
        · simp at h
    · by_cases hts : deploy_test_server w.ts = true
      · have hmain : mainModel ⟨DTarget.all, nc, ys, false⟩ w =
            { events := (gitAndHash ⟨DTarget.all, nc, ys, false⟩ w).1 ++
                [Ev.deployTest, Ev.runSuites]
              msgs := (gitAndHash ⟨DTarget.all, nc, ys, false⟩ w).2.1
              exitCode := 1
              head := (gitAndHash ⟨DTarget.all, nc, ys, false⟩ w).2.2.1 } := by
          simp [mainModel, hts, htf]
        rw [hmain]
        refine ⟨rfl, ?_, ?_⟩
        · intro hmem
          rcases List.mem_append.mp hmem with h | h
          · rcases hg _ h with h' | h' <;> exact Ev.noConfusion h'
          · simp at h
        · intro hmem
          rcases List.mem_append.mp hmem with h | h
          · rcases hg _ h with h' | h' <;> exact Ev.noConfusion h'
          · simp at h
      · have hts' : deploy_test_server w.ts = false := by
          rwa [Bool.not_eq_true] at hts
        have hmain : mainModel ⟨DTarget.all, nc, ys, false⟩ w =
            { events := (gitAndHash ⟨DTarget.all, nc, ys, false⟩ w).1 ++ [Ev.deployTest]
              msgs := (gitAndHash ⟨DTarget.all, nc, ys, false⟩ w).2.1
              exitCode := 1
              head := (gitAndHash ⟨DTarget.all, nc, ys, false⟩ w).2.2.1 } := by
          simp [mainModel, hts']
        rw [hmain]
        refine ⟨rfl, ?_, ?_⟩
        · intro hmem
          rcases List.mem_append.mp hmem with h | h
          · rcases hg _ h with h' | h' <;> exact Ev.noConfusion h'
          · simp at h
        · intro hmem
          rcases List.mem_append.mp hmem with h | h
          · rcases hg _ h with h' | h' <;> exact Ev.noConfusion h'
          · simp at h
  · intro hf
    dsimp only at hf
    subst hf
    rcases hGate with hts | htf
    · refine ⟨?_, ?_, ?_⟩ <;> simp [mainModel, hts, finishMain, log_deploy, gitAndHash]
    · by_cases hts : deploy_test_server w.ts = true
      · refine ⟨?_, ?_, ?_⟩ <;> simp [mainModel, hts, htf, finishMain, log_deploy, gitAndHash]
      · have hts' : deploy_test_server w.ts = false := by
          rwa [Bool.not_eq_true] at hts
        refine ⟨?_, ?_, ?_⟩ <;> simp [mainModel, hts', finishMain, log_deploy, gitAndHash]

/-- C1 witness: a gate with one timed-out suite and no `--force`. -/
theorem c1_gate_blocks_production_witness :
    ((⟨DTarget.all, true, false, false⟩ : Args).force = false →
      (mainModel ⟨DTarget.all, true, false, false⟩
        ⟨true, [], true, "h1", "h0", true, ⟨true, true, true, true, true, "active"⟩,
         [SuiteOutcome.timedOut], ⟨true, true, true, "active"⟩, true,
         ⟨true, true, true⟩, true⟩).exitCode = 1 ∧
      Ev.deployLightsailServer ∉ (mainModel ⟨DTarget.all, true, false, false⟩
        ⟨true, [], true, "h1", "h0", true, ⟨true, true, true, true, true, "active"⟩,
         [SuiteOutcome.timedOut], ⟨true, true, true, "active"⟩, true,
         ⟨true, true, true⟩, true⟩).events ∧
      Ev.deployIonosEv ∉ (mainModel ⟨DTarget.all, true, false, false⟩
        ⟨true, [], true, "h1", "h0", true, ⟨true, true, true, true, true, "active"⟩,
         [SuiteOutcome.timedOut], ⟨true, true, true, "active"⟩, true,
         ⟨true, true, true⟩, true⟩).events) ∧
    ((⟨DTarget.all, true, false, false⟩ : Args).force = true →
      Ev.deployLightsailServer ∈ (mainModel ⟨DTarget.all, true, false, false⟩
        ⟨true, [], true, "h1", "h0", true, ⟨true, true, true, true, true, "active"⟩,
         [SuiteOutcome.timedOut], ⟨true, true, true, "active"⟩, true,
         ⟨true, true, true⟩, true⟩).events ∧
      Ev.deployIonosEv ∈ (mainModel ⟨DTarget.all, true, false, false⟩
        ⟨true, [], true, "h1", "h0", true, ⟨true, true, true, true, true, "active"⟩,
         [SuiteOutcome.timedOut], ⟨true, true, true, "active"⟩, true,
         ⟨true, true, true⟩, true⟩).events ∧
      Ev.logAppend DTarget.all
        (gitAndHash ⟨DTarget.all, true, false, false⟩
          ⟨true, [], true, "h1", "h0", true, ⟨true, true, true, true, true, "active"⟩,
           [SuiteOutcome.timedOut], ⟨true, true, true, "active"⟩, true,
           ⟨true, true, true⟩, true⟩).2.2.2
        ((deploy_lightsail_server ⟨true, true, true, "active"⟩).1 && true) ∈
        (mainModel ⟨DTarget.all, true, false, false⟩
          ⟨true, [], true, "h1", "h0", true, ⟨true, true, true, true, true, "active"⟩,
           [SuiteOutcome.timedOut], ⟨true, true, true, "active"⟩, true,
           ⟨true, true, true⟩, true⟩).events) :=
  c1_gate_blocks_production ⟨DTarget.all, true, false, false⟩
    ⟨true, [], true, "h1", "h0", true, ⟨true, true, true, true, true, "active"⟩,
     [SuiteOutcome.timedOut], ⟨true, true, true, "active"⟩, true,
     ⟨true, true, true⟩, true⟩ rfl (Or.inr (by decide))

/-- C2: the high-risk bridge deploy without `--yes` is a no-op abort: only
the session-count journal probe runs, no copy, install or restart command is
issued, the function returns failure and (through `main`) the process exits
1.  With the flag, an existing artifact and a reachable host, the artifact
is copied, installed and the service restarted, and the function returns
success. -/
theorem c2_bridge_requires_confirmation :
    (∀ w : BridgeWorld, (deploy_lightsail_bridge false w).1 = false ∧
      (deploy_lightsail_bridge false w).2 = [BridgeCmd.journal] ∧
      BridgeCmd.scpCopy ∉ (deploy_lightsail_bridge false w).2 ∧
      BridgeCmd.installRestart ∉ (deploy_lightsail_bridge false w).2) ∧
    (∀ (a : Args) (w : World), a.target = DTarget.bridge → a.yes = false →
      (mainModel a w).exitCode = 1) ∧
    (∀ w : BridgeWorld, w.localExists = true → w.scpOk = true → w.installOk = true →
      deploy_lightsail_bridge true w =
        (true, [BridgeCmd.journal, BridgeCmd.scpCopy, BridgeCmd.installRestart])) := by
  refine ⟨?_, ?_, ?_⟩
  · intro w
    simp [deploy_lightsail_bridge]
  · intro a w hT hy
    obtain ⟨tgt, nc, ys, fc⟩ := a
    dsimp only at hT hy
    subst hT
    subst hy
    simp [mainModel, finishMain, log_deploy, deploy_lightsail_bridge]
  · intro w h1 h2 h3
    simp [deploy_lightsail_bridge, h1, h2, h3]

/-- C2 witness: applications of the theorem at concrete worlds. -/
theorem c2_bridge_requires_confirmation_witness :
    (deploy_lightsail_bridge false ⟨true, true, true⟩).1 = false ∧
    (mainModel ⟨DTarget.bridge, true, false, false⟩
      ⟨true, [], true, "h1", "h0", true, ⟨true, true, true, true, true, "active"⟩,
       [], ⟨true, true, true, "active"⟩, true, ⟨true, true, true⟩, true⟩).exitCode = 1 ∧
    deploy_lightsail_bridge true ⟨true, true, true⟩ =
      (true, [BridgeCmd.journal, BridgeCmd.scpCopy, BridgeCmd.installRestart]) :=
  ⟨(c2_bridge_requires_confirmation.1 ⟨true, true, true⟩).1,
   c2_bridge_requires_confirmation.2.1 ⟨DTarget.bridge, true, false, false⟩
     ⟨true, [], true, "h1", "h0", true, ⟨true, true, true, true, true, "active"⟩,
      [], ⟨true, true, true, "active"⟩, true, ⟨true, true, true⟩, true⟩ rfl rfl,
   c2_bridge_requires_confirmation.2.2 ⟨true, true, true⟩ rfl rfl rfl⟩

/-- C7 counterexample: with copy, patch and restart all succeeding but the
post-restart probe reporting `activating`, the sandbox deploy used by the
pre-flight gate returns `False` (deploy.py lines 210-212), while the
production server deploy in the same situation returns `True` — refuting
the claim that every service deploy treats a non-active state as a warning
only. -/
theorem c7_counterexample :
    deploy_test_server ⟨true, true, true, true, true, "activating"⟩ = false ∧
    (deploy_lightsail_server ⟨true, true, true, "activating"⟩).1 = true := by
  decide

/-- C7 (amended): the asymmetry as the code has it.  A production server
deploy whose copy, install and restart all succeed returns success
regardless of the health probe, printing only a warning when the state is
not `active`; the sandbox deploy returns failure whenever the post-restart
state is not `active`. -/
theorem c7_health_warning_asymmetry :
    (∀ w : LSWorld, w.localExists = true → w.scpOk = true → w.installOk = true →
      (deploy_lightsail_server w).1 = true ∧
      (w.health ≠ "active" →
        (deploy_lightsail_server w).2.2 = [LSMsg.warnStatus w.health])) ∧
    (∀ w : TSWorld, w.health ≠ "active" → deploy_test_server w = false) := by
  constructor
  · intro w h1 h2 h3
    constructor
    · by_cases hh : w.health = "active" <;> simp [deploy_lightsail_server, h1, h2, h3, hh]
    · intro hh
      simp [deploy_lightsail_server, h1, h2, h3, hh]
  · intro w hh
    unfold deploy_test_server
    split_ifs <;> simp_all

/-- C7 witness: the amended theorem at concrete worlds. -/
theorem c7_health_warning_asymmetry_witness :
    ((deploy_lightsail_server ⟨true, true, true, "failed"⟩).1 = true ∧
      ((⟨true, true, true, "failed"⟩ : LSWorld).health ≠ "active" →
        (deploy_lightsail_server ⟨true, true, true, "failed"⟩).2.2 =
          [LSMsg.warnStatus "failed"])) ∧
    deploy_test_server ⟨true, true, true, true, true, "failed"⟩ = false :=
  ⟨c7_health_warning_asymmetry.1 ⟨true, true, true, "failed"⟩ rfl rfl rfl,
   c7_health_warning_asymmetry.2 ⟨true, true, true, true, true, "failed"⟩ (by decide)⟩

/-- C8 counterexample: an otherwise-successful `ionos` deploy whose
audit-log transport write fails.  The entire observable outcome — events,
messages, exit code — is identical to the run where the write succeeds, the
`Deploy logged` line is printed as if the append had worked, and the exit
code is 0.  Nothing reports the failure to the operator, refuting the
claim's "is reported" clause (the exit-status clause does hold). -/
theorem c8_counterexample :
    mainModel ⟨DTarget.ionos, true, false, false⟩
      ⟨true, [], true, "h1", "h0", true, ⟨true, true, true, true, true, "active"⟩,
       [], ⟨true, true, true, "active"⟩, true, ⟨true, true, true⟩, false⟩ =
    mainModel ⟨DTarget.ionos, true, false, false⟩
      ⟨true, [], true, "h1", "h0", true, ⟨true, true, true, true, true, "active"⟩,
       [], ⟨true, true, true, "active"⟩, true, ⟨true, true, true⟩, true⟩ ∧
    (mainModel ⟨DTarget.ionos, true, false, false⟩
      ⟨true, [], true, "h1", "h0", true, ⟨true, true, true, true, true, "active"⟩,
       [], ⟨true, true, true, "active"⟩, true, ⟨true, true, true⟩, false⟩).exitCode = 0 ∧
    MMsg.deployLogged DTarget.ionos "h0" true ∈
      (mainModel ⟨DTarget.ionos, true, false, false⟩
        ⟨true, [], true, "h1", "h0", true, ⟨true, true, true, true, true, "active"⟩,
         [], ⟨true, true, true, "active"⟩, true, ⟨true, true, true⟩, false⟩).msgs := by
  decide

/-- C8 (amended): the audit-log write is fire-and-forget and its failure is
silently ignored: the observable outcome of `main` does not depend on the
transport result of the log append at all (in particular an
otherwise-successful deploy still exits 0 when the append fails), and an
`ionos` deploy that succeeds exits 0 while printing the `Deploy logged`
line unconditionally. -/
theorem c8_log_failure_ignored (a : Args) (w : World) :
    (∀ b₁ b₂ : Bool, mainModel a { w with logWriteOk := b₁ } =
      mainModel a { w with logWriteOk := b₂ }) ∧
    (a.target = DTarget.ionos → w.ionosOk = true →
      (mainModel a w).exitCode = 0 ∧
      MMsg.deployLogged DTarget.ionos (gitAndHash a w).2.2.2 true ∈ (mainModel a w).msgs) := by
  constructor
  · intro b₁ b₂
    obtain ⟨tgt, nc, ys, fc⟩ := a
    cases tgt <;>
      simp [mainModel, finishMain, log_deploy, gitAndHash, gitPhase]
  · intro hT hio
    obtain ⟨tgt, nc, ys, fc⟩ := a
    dsimp only at hT
    subst hT
    constructor
    · simp [mainModel, finishMain, log_deploy, hio]
    · simp [mainModel, finishMain, log_deploy, hio]

/-- C8 witness: the amended theorem at a concrete world. -/
theorem c8_log_failure_ignored_witness :
    (∀ b₁ b₂ : Bool,
      mainModel ⟨DTarget.ionos, true, false, false⟩
        { (⟨true, [], true, "h1", "h0", true, ⟨true, true, true, true, true, "active"⟩,
           [], ⟨true, true, true, "active"⟩, true, ⟨true, true, true⟩, true⟩ : World) with
          logWriteOk := b₁ } =
      mainModel ⟨DTarget.ionos, true, false, false⟩
        { (⟨true, [], true, "h1", "h0", true, ⟨true, true, true, true, true, "active"⟩,
           [], ⟨true, true, true, "active"⟩, true, ⟨true, true, true⟩, true⟩ : World) with
          logWriteOk := b₂ }) ∧
    ((⟨DTarget.ionos, true, false, false⟩ : Args).target = DTarget.ionos →
      (⟨true, [], true, "h1", "h0", true, ⟨true, true, true, true, true, "active"⟩,
       [], ⟨true, true, true, "active"⟩, true, ⟨true, true, true⟩, true⟩ : World).ionosOk = true →
      (mainModel ⟨DTarget.ionos, true, false, false⟩
        ⟨true, [], true, "h1", "h0", true, ⟨true, true, true, true, true, "active"⟩,
         [], ⟨true, true, true, "active"⟩, true, ⟨true, true, true⟩, true⟩).exitCode = 0 ∧
      MMsg.deployLogged DTarget.ionos
        (gitAndHash ⟨DTarget.ionos, true, false, false⟩
          ⟨true, [], true, "h1", "h0", true, ⟨true, true, true, true, true, "active"⟩,
           [], ⟨true, true, true, "active"⟩, true, ⟨true, true, true⟩, true⟩).2.2.2 true ∈
        (mainModel ⟨DTarget.ionos, true, false, false⟩
          ⟨true, [], true, "h1", "h0", true, ⟨true, true, true, true, true, "active"⟩,
           [], ⟨true, true, true, "active"⟩, true, ⟨true, true, true⟩, true⟩).msgs) :=
  c8_log_failure_ignored ⟨DTarget.ionos, true, false, false⟩
    ⟨true, [], true, "h1", "h0", true, ⟨true, true, true, true, true, "active"⟩,
     [], ⟨true, true, true, "active"⟩, true, ⟨true, true, true⟩, true⟩

/-- C10: a bridge invocation without `--yes` still appends an audit record
for the aborted attempt with outcome FAILED — the log append event carries
`success = false` — and the process exits 1. -/
theorem c10_bridge_abort_still_logged (a : Args) (w : World)
    (hT : a.target = DTarget.bridge) (hy : a.yes = false) :
    Ev.logAppend DTarget.bridge (gitAndHash a w).2.2.2 false ∈ (mainModel a w).events ∧
    MMsg.deployLogged DTarget.bridge (gitAndHash a w).2.2.2 false ∈ (mainModel a w).msgs ∧
    (mainModel a w).exitCode = 1 := by
  obtain ⟨tgt, nc, ys, fc⟩ := a
  dsimp only at hT hy
  subst hT
  subst hy
  refine ⟨?_, ?_, ?_⟩ <;>
    simp [mainModel, finishMain, log_deploy, deploy_lightsail_bridge]

/-- C10 witness: the theorem at a concrete world. -/
theorem c10_bridge_abort_still_logged_witness :
    Ev.logAppend DTarget.bridge
      (gitAndHash ⟨DTarget.bridge, true, false, false⟩
        ⟨true, [], true, "h1", "h0", true, ⟨true, true, true, true, true, "active"⟩,
         [], ⟨true, true, true, "active"⟩, true, ⟨true, true, true⟩, true⟩).2.2.2 false ∈
      (mainModel ⟨DTarget.bridge, true, false, false⟩
        ⟨true, [], true, "h1", "h0", true, ⟨true, true, true, true, true, "active"⟩,
         [], ⟨true, true, true, "active"⟩, true, ⟨true, true, true⟩, true⟩).events ∧
    MMsg.deployLogged DTarget.bridge
      (gitAndHash ⟨DTarget.bridge, true, false, false⟩
        ⟨true, [], true, "h1", "h0", true, ⟨true, true, true, true, true, "active"⟩,
         [], ⟨true, true, true, "active"⟩, true, ⟨true, true, true⟩, true⟩).2.2.2 false ∈
      (mainModel ⟨DTarget.bridge, true, false, false⟩
        ⟨true, [], true, "h1", "h0", true, ⟨true, true, true, true, true, "active"⟩,
         [], ⟨true, true, true, "active"⟩, true, ⟨true, true, true⟩, true⟩).msgs ∧
    (mainModel ⟨DTarget.bridge, true, false, false⟩
      ⟨true, [], true, "h1", "h0", true, ⟨true, true, true, true, true, "active"⟩,
       [], ⟨true, true, true, "active"⟩, true, ⟨true, true, true⟩, true⟩).exitCode = 1 :=
  c10_bridge_abort_still_logged ⟨DTarget.bridge, true, false, false⟩
    ⟨true, [], true, "h1", "h0", true, ⟨true, true, true, true, true, "active"⟩,
     [], ⟨true, true, true, "active"⟩, true, ⟨true, true, true⟩, true⟩ rfl rfl

/-- C9: Change Capture with an empty tracked-change set (git status
succeeds and reports only `??` untracked lines, or nothing) performs no
staging and no commit, leaves HEAD unchanged, and the revision identifier
recorded in any audit append of the invocation is the pre-existing one. -/
theorem c9_empty_change_set (a : Args) (w : World)
    (hT : a.target ≠ DTarget.test) (hnc : a.noCommit = false)
    (hgs : w.gitStatusOk = true)
    (hlines : ∀ l ∈ w.gitLines, "??".data.isPrefixOf l.data = true)
    (hrev : w.revParseOk = true) :
    Ev.gitAdd ∉ (mainModel a w).events ∧
    Ev.gitCommit ∉ (mainModel a w).events ∧
    (mainModel a w).head = w.head0 ∧
    (∀ t h s, Ev.logAppend t h s ∈ (mainModel a w).events → h = w.head0) := by
  have hfil : w.gitLines.filter (fun l => !("??".data.isPrefixOf l.data)) = [] := by
    rw [List.filter_eq_nil_iff]
    intro l hl
    simp [hlines l hl]
  have hgp : gitPhase w = ([], [MMsg.noTrackedChanges], w.head0) := by
    simp [gitPhase, hgs, hfil]
  have hga : gitAndHash a w = ([], [MMsg.noTrackedChanges], w.head0, w.head0) := by
    simp [gitAndHash, hnc, hgp, hrev]
  obtain ⟨tgt, nc, ys, fc⟩ := a
  dsimp only at hnc
  subst hnc
  cases tgt with
  | test => exact absurd rfl hT
  | ionos =>
    refine ⟨?_, ?_, ?_, ?_⟩
    · simp [mainModel, finishMain, log_deploy, hga]
    · simp [mainModel, finishMain, log_deploy, hga]
    · simp [mainModel, finishMain, log_deploy, hga]
    · intro t h s hm
      simp [mainModel, finishMain, log_deploy, hga] at hm
      tauto
  | lightsail =>
    refine ⟨?_, ?_, ?_, ?_⟩
    · simp [mainModel, finishMain, log_deploy, hga]
    · simp [mainModel, finishMain, log_deploy, hga]
    · simp [mainModel, finishMain, log_deploy, hga]
    · intro t h s hm
      simp [mainModel, finishMain, log_deploy, hga] at hm
      tauto
  | bridge =>
    refine ⟨?_, ?_, ?_, ?_⟩
    · simp [mainModel, finishMain, log_deploy, hga]
    · simp [mainModel, finishMain, log_deploy, hga]
    · simp [mainModel, finishMain, log_deploy, hga]
    · intro t h s hm
      simp [mainModel, finishMain, log_deploy, hga] at hm
      tauto
  | all =>
    by_cases hts : deploy_test_server w.ts = true
    · by_cases htf : (run_test_suites w.suiteOuts).2.1 = 0
      · refine ⟨?_, ?_, ?_, ?_⟩
        · simp [mainModel, hts, htf, finishMain, log_deploy, hga]
        · simp [mainModel, hts, htf, finishMain, log_deploy, hga]
        · simp [mainModel, hts, htf, finishMain, log_deploy, hga]
        · intro t h s hm
          simp [mainModel, hts, htf, finishMain, log_deploy, hga] at hm
          tauto
      · cases fc with
        | false =>
          refine ⟨?_, ?_, ?_, ?_⟩
          · simp [mainModel, hts, htf, hga]
          · simp [mainModel, hts, htf, hga]
          · simp [mainModel, hts, htf, hga]
          · intro t h s hm
            simp [mainModel, hts, htf, hga] at hm
        | true =>
          refine ⟨?_, ?_, ?_, ?_⟩
          · simp [mainModel, hts, htf, finishMain, log_deploy, hga]
          · simp [mainModel, hts, htf, finishMain, log_deploy, hga]
          · simp [mainModel, hts, htf, finishMain, log_deploy, hga]
          · intro t h s hm
            simp [mainModel, hts, htf, finishMain, log_deploy, hga] at hm
            tauto
    · have hts' : deploy_test_server w.ts = false := by
        rwa [Bool.not_eq_true] at hts
      cases fc with
      | false =>
        refine ⟨?_, ?_, ?_, ?_⟩
        · simp [mainModel, hts', hga]
        · simp [mainModel, hts', hga]
        · simp [mainModel, hts', hga]
        · intro t h s hm
          simp [mainModel, hts', hga] at hm
      | true =>
        refine ⟨?_, ?_, ?_, ?_⟩
        · simp [mainModel, hts', finishMain, log_deploy, hga]
        · simp [mainModel, hts', finishMain, log_deploy, hga]
        · simp [mainModel, hts', finishMain, log_deploy, hga]
        · intro t h s hm
          simp [mainModel, hts', finishMain, log_deploy, hga] at hm
          tauto

/-- C9 witness: the theorem at a concrete world whose git status reports
only untracked lines. -/
theorem c9_empty_change_set_witness :
    Ev.gitAdd ∉ (mainModel ⟨DTarget.ionos, false, false, false⟩
      ⟨true, ["?? notes.txt"], true, "h1", "h0", true,
       ⟨true, true, true, true, true, "active"⟩, [], ⟨true, true, true, "active"⟩,
       true, ⟨true, true, true⟩, true⟩).events ∧
    Ev.gitCommit ∉ (mainModel ⟨DTarget.ionos, false, false, false⟩
      ⟨true, ["?? notes.txt"], true, "h1", "h0", true,
       ⟨true, true, true, true, true, "active"⟩, [], ⟨true, true, true, "active"⟩,
       true, ⟨true, true, true⟩, true⟩).events ∧
    (mainModel ⟨DTarget.ionos, false, false, false⟩
      ⟨true, ["?? notes.txt"], true, "h1", "h0", true,
       ⟨true, true, true, true, true, "active"⟩, [], ⟨true, true, true, "active"⟩,
       true, ⟨true, true, true⟩, true⟩).head = "h0" ∧
    (∀ t h s, Ev.logAppend t h s ∈ (mainModel ⟨DTarget.ionos, false, false, false⟩
      ⟨true, ["?? notes.txt"], true, "h1", "h0", true,
       ⟨true, true, true, true, true, "active"⟩, [], ⟨true, true, true, "active"⟩,
       true, ⟨true, true, true⟩, true⟩).events → h = "h0") :=
  c9_empty_change_set ⟨DTarget.ionos, false, false, false⟩
    ⟨true, ["?? notes.txt"], true, "h1", "h0", true,
     ⟨true, true, true, true, true, "active"⟩, [], ⟨true, true, true, "active"⟩,
     true, ⟨true, true, true⟩, true⟩
    (by decide) rfl rfl (by decide) rfl

/-- C5 witness: the theorem's universally quantified parts applied at a
concrete suite list and a concrete passing world. -/
theorem c5_gate_aggregation_witness :
    ((run_test_suites [SuiteOutcome.timedOut]).2.1 =
      (((run_test_suites [SuiteOutcome.timedOut]).2.2).map suiteFailCount).sum) ∧
    (Ev.deployLightsailServer ∈ (mainModel ⟨DTarget.all, true, false, false⟩
      ⟨true, [], true, "h1", "h0", true, ⟨true, true, true, true, true, "active"⟩,
       [], ⟨true, true, true, "active"⟩, true, ⟨true, true, true⟩, true⟩).events ∧
     Ev.deployIonosEv ∈ (mainModel ⟨DTarget.all, true, false, false⟩
      ⟨true, [], true, "h1", "h0", true, ⟨true, true, true, true, true, "active"⟩,
       [], ⟨true, true, true, "active"⟩, true, ⟨true, true, true⟩, true⟩).events) :=
  ⟨(c5_gate_aggregation.1 [SuiteOutcome.timedOut]).1,
   c5_gate_aggregation.2.2 ⟨DTarget.all, true, false, false⟩
     ⟨true, [], true, "h1", "h0", true, ⟨true, true, true, true, true, "active"⟩,
      [], ⟨true, true, true, "active"⟩, true, ⟨true, true, true⟩, true⟩
     rfl (by decide) (by decide)⟩
